import Mathlib

/-!
Verification of the RISC-V instruction-table compiler (`envi/archs/riscv/gen.py`)
and the runtime decoder (`envi/archs/riscv/disasm.py`) of the vivisect RISC-V
module.  Python functions are embedded shallowly: strings become `String` or
`List Char`, arbitrary-precision integers become `Nat` (with `Int` where Python
bit-complement semantics matter), dictionaries become association lists that
preserve insertion order, and `raise`/`assert` become `Except`.
-/

set_option maxHeartbeats 1000000

/-- Decidable equality for `Except`, so that concrete runs of the embedded
fallible functions can be checked by `decide`. -/
instance exceptDecEq {ε α : Type _} [DecidableEq ε] [DecidableEq α] :
    DecidableEq (Except ε α) := fun a b =>
  match a, b with
  | .error x, .error y =>
    match decEq x y with
    | isTrue h => isTrue (h ▸ rfl)
    | isFalse h => isFalse fun hc => h (Except.error.inj hc)
  | .ok x, .ok y =>
    match decEq x y with
    | isTrue h => isTrue (h ▸ rfl)
    | isFalse h => isFalse fun hc => h (Except.ok.inj hc)
  | .error _, .ok _ => isFalse fun hc => Except.noConfusion hc
  | .ok _, .error _ => isFalse fun hc => Except.noConfusion hc

namespace RiscVGen

/-! ## Bit strings

`gen.py` builds masks and values as binary *strings* (most significant bit
first) and converts them with `int(s, 2)`.  We model binary digit strings as
`List Bool` (MSB first) and give the numeric conversion both MSB-first
(`bitsToNat`, mirroring `int(s, 2)`) and LSB-first (`lsbToNat`, used in
proofs). -/

/-- Value of an LSB-first bit list. -/
def lsbToNat : List Bool → Nat
  | [] => 0
  | b :: t => b.toNat + 2 * lsbToNat t

/-- Value of an MSB-first bit list, exactly as `int(s, 2)` reads a binary
string left to right. -/
def bitsToNat (l : List Bool) : Nat := l.foldl (fun n b => 2 * n + b.toNat) 0

/-! ## The field-token patterns of `gen.py`

The compiler classifies table cells with anchored regular expressions
(`_immvaluepat`, `_regvaluepat`, `_reqbinvaluepat`, ...).  Each pattern is an
alternation of simple shapes; we implement each alternative as an executable
matcher on `List Char` and the pattern as the disjunction of its
alternatives. -/

/-- Exact-string alternative such as `r'offset'` (the patterns are anchored
with `^...$`). -/
def strIs (s : String) (cs : List Char) : Bool := cs == s.data

/-- Matches `[^]]+\]$`: at least one non-`]` character followed by a final
`]`. -/
def bracketTail (t : List Char) : Bool :=
  decide (2 ≤ t.length) && (t.getLast? == some ']') && t.dropLast.all (fun c => c != ']')

/-- Matches `pre\[[^]]+\]$`, e.g. the `imm[...]` alternatives. -/
def bracketPat (pre : String) (cs : List Char) : Bool :=
  (pre.data ++ ['[']).isPrefixOf cs && bracketTail (cs.drop (pre.length + 1))

/-- `_immfields`: `imm[...]`, `imm`, `offset`, `jump target`. -/
def immFieldB (cs : List Char) : Bool :=
  bracketPat "imm" cs || strIs "imm" cs || strIs "offset" cs || strIs "jump target" cs

/-- `_immvalues`: the immediate-family token alternatives. -/
def immValueB (cs : List Char) : Bool :=
  immFieldB cs ||
  bracketPat "shamt" cs || strIs "shamt" cs ||
  strIs "fm" cs || strIs "pred" cs || strIs "succ" cs ||
  strIs "aq" cs || strIs "rl" cs || strIs "csr" cs ||
  strIs "uimm" cs || bracketPat "uimm" cs ||
  bracketPat "nzimm" cs || bracketPat "nzuimm" cs

/-- Matches `rs[0-9]?$`. -/
def rsOptB (cs : List Char) : Bool :=
  match cs with
  | 'r' :: 's' :: rest =>
    match rest with
    | [] => true
    | [d] => d.isDigit
    | _ => false
  | _ => false

/-- Matches `rd/rs[0-9]?$`. -/
def rdSlashRsB (cs : List Char) : Bool :=
  match cs with
  | 'r' :: 'd' :: '/' :: rest => rsOptB rest
  | _ => false

/-- `_regfields`: the plain register-name alternatives. -/
def regFieldB (cs : List Char) : Bool :=
  rsOptB cs || strIs "rd" cs || rdSlashRsB cs ||
  strIs "\\rsoneprime" cs || strIs "\\rstwoprime" cs || strIs "\\rdprime" cs ||
  strIs "\\rsoneprime/\\rdprime" cs || strIs "\\rstwoprime/\\rdprime" cs ||
  strIs "\\rdprime/\\rsoneprime" cs || strIs "\\rdprime/\\rstwoprime" cs

/-- Consumes the leading `rs[0-9]?` of a guarded register token and returns
the remainder (the guard must follow, so a digit is consumed when present). -/
def afterRs (cs : List Char) : Option (List Char) :=
  match cs with
  | 'r' :: 's' :: rest =>
    match rest with
    | c :: r => if c.isDigit then some r else some (c :: r)
    | [] => some []
  | _ => none

/-- Consumes `\$\\n?eq\$` (the LaTeX guard marker, i.e. a literal
dollar-backslash, optional `n`, `eq`, dollar) and returns the remainder. -/
def afterEqTag (t : List Char) : Option (List Char) :=
  match t with
  | '$' :: '\\' :: 'n' :: 'e' :: 'q' :: '$' :: r => some r
  | '$' :: '\\' :: 'e' :: 'q' :: '$' :: r => some r
  | _ => none

/-- Matches `\$\\{[0-9,]+\\}\$` (a literal `$\`, brace, digits/commas, `\`,
closing brace, `$`). -/
def braceSetB (r : List Char) : Bool :=
  match r with
  | '$' :: '\\' :: '\x7b' :: rest =>
    let core := rest.takeWhile (fun c => c.isDigit || c == ',')
    !core.isEmpty && rest.drop core.length == ['\\', '\x7d', '$']
  | _ => false

/-- Guard suffix `\$\\n?eq\$0`. -/
def eqZeroB (t : List Char) : Bool :=
  match afterEqTag t with
  | some r => r == ['0']
  | none => false

/-- Guard suffix `\$\\n?eq\$\$\\{[0-9,]+\\}\$`. -/
def eqSetB (t : List Char) : Bool :=
  match afterEqTag t with
  | some r => braceSetB r
  | none => false

/-- Matches `rs[0-9]?/rd` followed by a guard suffix (`...eq$0` or the
brace-set form). -/
def rsSlashRdGuardB (cs : List Char) : Bool :=
  match afterRs cs with
  | some ('/' :: 'r' :: 'd' :: u) => eqZeroB u || eqSetB u
  | _ => false

/-- Matches `rs[0-9]?` followed directly by a guard suffix. -/
def rsGuardB (cs : List Char) : Bool :=
  match afterRs cs with
  | some u => eqZeroB u || eqSetB u
  | none => false

/-- Matches `rd` followed by a guard suffix. -/
def rdGuardB (cs : List Char) : Bool :=
  match cs with
  | 'r' :: 'd' :: u => eqZeroB u || eqSetB u
  | _ => false

/-- `_regvalues`: register fields plus the guarded-equality variants. -/
def regValueB (cs : List Char) : Bool :=
  regFieldB cs || rsSlashRdGuardB cs || rsGuardB cs || rdGuardB cs

/-- `_regvalueformmatchpat`: `_regvalues` plus the bare `uimm` token. -/
def regFormValueB (cs : List Char) : Bool :=
  regValueB cs || strIs "uimm" cs

/-- Matches `funct[0-9]$`. -/
def functB (cs : List Char) : Bool :=
  match cs with
  | 'f' :: 'u' :: 'n' :: 'c' :: 't' :: rest =>
    match rest with
    | [d] => d.isDigit
    | _ => false
  | _ => false

/-- `_reqbinfields`: `funct[0-9]`, `opcode`, `op`. -/
def reqbinFieldB (cs : List Char) : Bool :=
  functB cs || strIs "opcode" cs || strIs "op" cs

/-- `_binvalues`: `[01]+`. -/
def binValueB (cs : List Char) : Bool :=
  !cs.isEmpty && cs.all (fun c => c == '0' || c == '1')

/-- `_decvalues`: `[0-9]+`. -/
def decValueB (cs : List Char) : Bool :=
  !cs.isEmpty && cs.all (fun c => c.isDigit)

/-- `_reqbinvalues`: `_reqbinfields` + binary constants + decimal constants +
the literal `rm`. -/
def reqbinValueB (cs : List Char) : Bool :=
  reqbinFieldB cs || binValueB cs || decValueB cs || strIs "rm" cs

/-- `_binfields`: `_regfields` + `_immfields`. -/
def binFieldB (cs : List Char) : Bool :=
  regFieldB cs || immFieldB cs

/-- The field kinds of `gen.py` (`class OpcodeType(enum.Enum)`). -/
inductive OpcodeType where
  | OPCODE
  | REG
  | CONST
  | IMM
  | RM
  | C_OPCODE
  | C_REG
deriving DecidableEq, Repr, Inhabited

/-- Contiguous-sublist test, used for Python's `in` on strings. -/
def infixOfB (needle : List Char) : List Char → Bool
  | [] => needle.isEmpty
  | c :: t => needle.isPrefixOf (c :: t) || infixOfB needle t

/-- Python substring test `'prime' in field`. -/
def containsPrime (s : String) : Bool := infixOfB "prime".data s.data

/-- `get_field_type` from `gen.py`: classify a raw token, `none` for the
`raise Exception('Unknown field type: ...')` branch. -/
def get_field_type (s : String) : Option OpcodeType :=
  if immValueB s.data then some .IMM
  else if regValueB s.data then
    (if containsPrime s then some .C_REG else some .REG)
  else if reqbinValueB s.data then
    (if strIs "opcode" s.data then some .OPCODE
     else if strIs "op" s.data then some .C_OPCODE
     else if strIs "rm" s.data then some .RM
     else some .CONST)
  else none

/-- The classification described by the specification, applying its four
pattern groups in the stated precedence order: immediate-family, then
decimal-constant, then register-family, then required-binary-constant
(`opcode`/`op`/`funct#`/`rm`). -/
def classifySpecOrder (s : String) : Option OpcodeType :=
  if immValueB s.data then some .IMM
  else if decValueB s.data then some .CONST
  else if regValueB s.data then
    (if containsPrime s then some .C_REG else some .REG)
  else if reqbinFieldB s.data || strIs "rm" s.data then
    (if strIs "opcode" s.data then some .OPCODE
     else if strIs "op" s.data then some .C_OPCODE
     else if strIs "rm" s.data then some .RM
     else some .CONST)
  else none

/-! ## The encoding model of `gen.py`

`Field` records carry either a symbolic name or an integer constant in their
`value` slot (`"name" or integer constant` in the source); `Form` is a named
ordered field list. -/

/-- A `Field.value`: a token string or an integer constant. -/
inductive FieldVal where
  | istr (s : String)
  | inum (n : Nat)
deriving DecidableEq, Repr, Inhabited

/-- The `Field` namedtuple of `gen.py`. -/
structure GenField where
  value : FieldVal
  type : OpcodeType
  columns : Nat
  bits : Nat
  mask : Nat
  shift : Nat
deriving DecidableEq, Repr, Inhabited

/-- The `Form` namedtuple of `gen.py`. -/
structure Form where
  name : String
  fields : List GenField
deriving DecidableEq, Repr, Inhabited

/-- Run a token pattern on a `Field.value` (the compiler only ever applies
patterns to string-valued form fields; an integer value never matches). -/
def fvMatch (p : List Char → Bool) : FieldVal → Bool
  | .istr s => p s.data
  | .inum _ => false

/-- String-valued accessor used by the guards (`field.value.startswith`,
`value[1] in field.value`); integer values never reach these guards. -/
def fvStr : FieldVal → String
  | .istr s => s
  | .inum _ => ""

/-! ## `find_form`

A row is a list of `(width, token)` cells; the special-case rewrites replace
some adjacent cells by a grouped sub-list, so a row entry is either a single
cell or a group of cells. -/

/-- One entry of the `fields` list handled by `find_form`: a `(size, token)`
tuple or a list of such tuples produced by the special-case grouping. -/
inductive FEntry where
  | fsingle (sz : Nat) (tok : String)
  | fgroup (items : List (Nat × String))
deriving DecidableEq, Repr, Inhabited

/-- `f[1]` as used by the special-case comparisons: the token of a single
cell; a grouped entry is a list, which compares unequal to every string. -/
def fname : FEntry → Option String
  | .fsingle _ t => some t
  | .fgroup _ => none

/-- Flatten an entry back to its cells. -/
def fitems : FEntry → List (Nat × String)
  | .fsingle s t => [(s, t)]
  | .fgroup l => l

/-- Size of a single cell (`int(f[0])` in the collapse step). -/
def fentrySz : FEntry → Nat
  | .fsingle n _ => n
  | .fgroup _ => 0

/-- Token of a single cell (`f[1]` in the collapse step). -/
def fentryTok : FEntry → String
  | .fsingle _ t => t
  | .fgroup _ => ""

/-- Is the entry a single cell whose token matches `_binvaluepat`? -/
def isBinS : FEntry → Bool
  | .fsingle _ t => binValueB t.data
  | .fgroup _ => false

/-- Is the entry a grouped sub-list? -/
def isGrp : FEntry → Bool
  | .fgroup _ => true
  | .fsingle _ _ => false

/-- The special-case grouping rewrites at the top of `find_form`: the
`fm/pred/succ` (and FENCE.TSO / PAUSE) triple, the `aq/rl` pair, the `shamt`
split and the compressed `imm[5]`-plus-2-bit-constant split. -/
def specialStep (fields : List FEntry) : List FEntry :=
  let names := fields.map fname
  if names.take 3 == [some "fm", some "pred", some "succ"] ||
     names.take 3 == [some "1000", some "0011", some "0011"] ||
     names.take 3 == [some "0000", some "0001", some "0000"] then
    .fgroup ((fields.take 3).map fitems).flatten :: fields.drop 3
  else if (names.drop 1).take 2 == [some "aq", some "rl"] then
    .fgroup ((fields.take 3).map fitems).flatten :: fields.drop 3
  else if names.getD 1 none == some "shamt" then
    .fgroup ((fields.take 2).map fitems).flatten :: fields.drop 2
  else if (names.getD 1 none == some "imm[5]" || names.getD 1 none == some "nzuimm[5]") &&
          (match names.getD 2 none with
           | some t => t.length == 2 && binValueB t.data
           | none => false) then
    fields.take 1 ++ [.fgroup (((fields.drop 1).take 2).map fitems).flatten] ++ fields.drop 3
  else fields

/-- A parsed cell: width paired with either a converted integer constant or
the original token. -/
inductive PVal where
  | pnum (n : Nat)
  | pstr (s : String)
deriving DecidableEq, Repr, Inhabited

/-- `int(tok, 2)`. -/
def binToNat (cs : List Char) : Nat :=
  cs.foldl (fun n c => 2 * n + (if c == '1' then 1 else 0)) 0

/-- `int(tok, 10)`. -/
def decToNat (cs : List Char) : Nat :=
  cs.foldl (fun n c => 10 * n + (c.toNat - '0'.toNat)) 0

/-- The immediate-compatibility guard of `find_form` (the parenthesised
condition after `_immvaluepat.match(value[1]) and _immfieldpat.match(...)`). -/
def immGuard (tok : String) (f : String) : Bool :=
  (immFieldB tok.data && tok == f) ||
  !immFieldB tok.data ||
  !f.startsWith "imm" ||
  (tok.startsWith "imm" && f == "imm")

/-- The register-compatibility guard of `find_form` (substring containment
plus `prime` consistency). -/
def regGuard (tok : String) (f : String) : Bool :=
  ((regFieldB tok.data && infixOfB tok.data f.data) ||
   !regFieldB tok.data ||
   (containsPrime tok && containsPrime f)) &&
  ((containsPrime tok && containsPrime f) ||
   (!containsPrime tok && !containsPrime f))

/-- The per-position compatibility check of `find_form`'s direct matching
loop; `none` models the `match = False; break` paths. -/
def matchOne (v : FEntry) (ff : GenField) : Option (List (Nat × PVal)) :=
  match v with
  | .fsingle sz tok =>
    if sz != ff.columns then none
    else if fvMatch reqbinFieldB ff.value then
      if reqbinValueB tok.data then
        some [(sz, if binValueB tok.data then .pnum (binToNat tok.data) else .pstr tok)]
      else none
    else
      if binValueB tok.data && fvMatch binFieldB ff.value then
        some [(sz, .pnum (binToNat tok.data))]
      else if decValueB tok.data && fvMatch binFieldB ff.value then
        some [(sz, .pnum (decToNat tok.data))]
      else if immValueB tok.data && fvMatch immFieldB ff.value &&
              immGuard tok (fvStr ff.value) then
        some [(sz, .pstr tok)]
      else if regFormValueB tok.data && fvMatch regFieldB ff.value &&
              regGuard tok (fvStr ff.value) then
        some [(sz, .pstr tok)]
      else none
  | .fgroup items =>
    let colw := (items.map (fun p => p.1)).sum
    match items with
    | [] => none
    | (s0, t0) :: rest =>
      if binValueB t0.data && fvMatch reqbinFieldB ff.value && colw == ff.columns then
        some ((s0, .pnum (binToNat t0.data)) :: rest.map (fun p => (p.1, .pstr p.2)))
      else if fvMatch binFieldB ff.value && colw == ff.columns then
        some (((s0, t0) :: rest).map (fun p => (p.1, .pstr p.2)))
      else none

/-- Field-by-field matching of a row against one form. -/
def matchFields : List FEntry → List GenField → Option (List (Nat × PVal))
  | [], [] => some []
  | v :: vs, f :: fs =>
    match matchOne v f with
    | some ps =>
      match matchFields vs fs with
      | some rest => some (ps ++ rest)
      | none => none
    | none => none
  | _, _ => none

/-- The direct matching loop over the form catalog (first form with the same
field count whose every position is compatible wins). -/
def tryForms (fields : List FEntry) : List Form → Option (String × List (Nat × PVal))
  | [] => none
  | f :: rest =>
    if fields.length == f.fields.length then
      match matchFields fields f.fields with
      | some ps => some (f.name, ps)
      | none => tryForms fields rest
    else tryForms fields rest

/-- The run scan of `find_form`'s collapse phase, starting at index `start`:
returns the first maximal run `[s, t)` of adjacent binary single cells that is
followed by a further cell; `.ok none` when no such interior run exists;
`.error ()` when the scan reaches a grouped entry (where the Python code would
apply a regex to a list and crash). -/
def findRun (f : List FEntry) (start : Nat) : Except Unit (Option (Nat × Nat)) :=
  let rest := f.drop start
  match rest.findIdx? (fun e => isBinS e || isGrp e) with
  | none => .ok none
  | some i =>
    if isGrp (rest.getD i default) then .error ()
    else
      let s := start + i
      let rest2 := f.drop (s + 1)
      match rest2.findIdx? (fun e => !isBinS e) with
      | none => .ok none
      | some j =>
        if isGrp (rest2.getD j default) then .error ()
        else .ok (some (s, s + 1 + j))

/-- Merge the run `[s, t)` into one composite cell (sum of the widths, token
concatenation). -/
def collapseRun (f : List FEntry) (s t : Nat) : List FEntry :=
  let run := (f.drop s).take (t - s)
  f.take s ++ [.fsingle ((run.map fentrySz).sum) (String.join (run.map fentryTok))] ++ f.drop t

/-- The failure modes of `find_form`: the final `raise Exception('no form
match found ...')`, and the `TypeError` the Python code runs into when the
collapse scan applies a regex to a grouped (list-valued) entry. -/
inductive FFErr where
  | noMatch
  | typeErr
deriving DecidableEq, Repr

/-- `find_form` from `gen.py`: apply the special-case groupings, try a direct
match against every form, and on failure collapse the first interior run of
adjacent binary cells (of length greater than one) and retry recursively —
first scanning from index 1, then from index 0. -/
def find_form (fields : List FEntry) (forms : List Form) :
    Except FFErr (String × List (Nat × PVal)) :=
  match tryForms (specialStep fields) forms with
  | some r => .ok r
  | none =>
    match h1 : findRun (specialStep fields) 1 with
    | .error _ => .error .typeErr
    | .ok (some (s, t)) =>
      if hgt : t - s > 1 then find_form (collapseRun (specialStep fields) s t) forms
      else
        match h0 : findRun (specialStep fields) 0 with
        | .error _ => .error .typeErr
        | .ok (some (s2, t2)) =>
          if hgt2 : t2 - s2 > 1 then find_form (collapseRun (specialStep fields) s2 t2) forms
          else .error .noMatch
        | .ok none => .error .noMatch
    | .ok none =>
      match h0 : findRun (specialStep fields) 0 with
      | .error _ => .error .typeErr
      | .ok (some (s2, t2)) =>
        if hgt2 : t2 - s2 > 1 then find_form (collapseRun (specialStep fields) s2 t2) forms
        else .error .noMatch
      | .ok none => .error .noMatch
termination_by fields.length
decreasing_by
  all_goals {
    have hidx : ∀ (l : List FEntry) (p : FEntry → Bool) (i : Nat),
        l.findIdx? p = some i → i < l.length :=
      fun _ _ _ h => (List.findIdx?_eq_some_iff_findIdx_eq.mp h).1
    have hrunb : ∀ (l : List FEntry) (st s t : Nat),
        findRun l st = .ok (some (s, t)) → s < t ∧ t ≤ l.length := by
      intro l st s t h
      simp only [findRun] at h
      split at h
      · simp at h
      · rename_i i hfind1
        split at h
        · simp at h
        · split at h
          · simp at h
          · rename_i j hfind2
            split at h
            · simp at h
            · simp only [Except.ok.injEq, Option.some.injEq, Prod.mk.injEq] at h
              have hi := hidx _ _ _ hfind1
              have hj := hidx _ _ _ hfind2
              simp only [List.length_drop] at hi hj
              omega
    have hspec : ∀ (l : List FEntry), (specialStep l).length ≤ l.length := by
      intro l
      simp only [specialStep]
      split
      · rename_i h
        simp only [Bool.or_eq_true, beq_iff_eq] at h
        have hlen : 3 ≤ l.length := by
          rcases h with (h | h) | h <;>
            (have key := congrArg List.length h
             simp [List.length_take] at key
             omega)
        simp [List.length_drop]
        omega
      · split
        · rename_i h
          simp only [beq_iff_eq] at h
          have hlen : 3 ≤ l.length := by
            have := congrArg List.length h
            simp [List.length_take] at this
            omega
          simp [List.length_drop]
          omega
        · split
          · rename_i h
            simp only [beq_iff_eq] at h
            have hlen : 2 ≤ l.length := by
              by_contra hc
              have hnone : (List.map fname l)[1]? = none :=
                List.getElem?_eq_none (by simp; omega)
              rw [List.getD_eq_getElem?_getD, hnone] at h
              simp at h
            simp [List.length_drop]
            omega
          · split
            · rename_i h
              rw [Bool.and_eq_true] at h
              obtain ⟨ha', hb'⟩ := h
              have hlen : 3 ≤ l.length := by
                by_contra hc
                have hnone : (List.map fname l)[2]? = none :=
                  List.getElem?_eq_none (by simp; omega)
                rw [List.getD_eq_getElem?_getD, hnone] at hb'
                simp at hb'
              simp [List.length_take, List.length_drop]
              omega
            · exact Nat.le_refl _
    have hsp := hspec fields
    first
    | (obtain ⟨hlt, hle⟩ := hrunb _ _ _ _ h1
       simp only [collapseRun, List.length_append, List.length_take,
         List.length_drop, List.length_cons, List.length_nil]
       omega)
    | (obtain ⟨hlt, hle⟩ := hrunb _ _ _ _ h0
       simp only [collapseRun, List.length_append, List.length_take,
         List.length_drop, List.length_cons, List.length_nil]
       omega)
  }

/-! ## `get_instr_mask`

The instruction mask and value are built as binary strings, one field at a
time: constant-bearing fields (`CONST`/`OPCODE`/`C_OPCODE`) contribute
`'1' * bits` to the mask and their binary digits to the value — via
`bin(v)[2:]` (no width padding!) for integer values, verbatim for binary
strings, and `bin(int(s))[2:]` for decimal strings — while all other fields
contribute `'0' * bits` to both strings. -/

/-- `bin(n)[2:]` without the leading-zero special case (empty for 0); the
fuel argument makes the recursion structural, `fuel = n` always suffices. -/
def natToBinFuel : Nat → Nat → List Bool
  | 0, _ => []
  | fuel + 1, v => if v == 0 then [] else natToBinFuel fuel (v / 2) ++ [decide (v % 2 = 1)]

/-- `bin(n)[2:]`: the binary digits of `n`, MSB first, `"0"` for zero. -/
def natToBin (n : Nat) : List Bool :=
  if n == 0 then [false] else natToBinFuel n n

/-- Is the field type constant-bearing? -/
def isConstType (t : OpcodeType) : Bool :=
  t == .CONST || t == .OPCODE || t == .C_OPCODE

/-- The digits a field contributes to the mask string. -/
def maskContrib (f : GenField) : List Bool :=
  if isConstType f.type then List.replicate f.bits true else List.replicate f.bits false

/-- The digits a field contributes to the value string; `.error ()` models
`raise Exception('Cannot create mask with non-integer field: ...')`. -/
def valueContrib (f : GenField) : Except Unit (List Bool) :=
  if isConstType f.type then
    match f.value with
    | .inum n => .ok (natToBin n)
    | .istr s =>
      if binValueB s.data then .ok (s.data.map (fun c => c == '1'))
      else if decValueB s.data then .ok (natToBin (decToNat s.data))
      else .error ()
  else .ok (List.replicate f.bits false)

/-- Concatenated value digits of a field list, failing at the first field the
loop in `get_instr_mask` rejects. -/
def valueParts : List GenField → Except Unit (List Bool)
  | [] => .ok []
  | f :: fs =>
    match valueContrib f with
    | .error e => .error e
    | .ok c =>
      match valueParts fs with
      | .error e => .error e
      | .ok r => .ok (c ++ r)

/-- Concatenated mask digits of a field list. -/
def maskParts (l : List GenField) : List Bool := (l.map maskContrib).flatten

/-- `get_instr_mask` from `gen.py`: returns `(mask, value)` as numbers; the
empty-digit-string checks model `int('0b', 2)` raising `ValueError`. -/
def get_instr_mask (fields : List GenField) : Except Unit (Nat × Nat) :=
  match valueParts fields with
  | .error e => .error e
  | .ok vl =>
    if (maskParts fields).isEmpty then .error ()
    else if vl.isEmpty then .error ()
    else .ok (bitsToNat (maskParts fields), bitsToNat vl)

/-- Decidable well-formedness facts about a field's value contribution, used
as hypotheses about the shapes the table compiler actually produces. -/
def zeroContrib (f : GenField) : Bool :=
  match valueContrib f with
  | .ok l => l.all (fun b => b == false)
  | .error _ => true

/-- The field's value digits fit inside its declared bit width. -/
def vlenLe (f : GenField) : Bool :=
  match valueContrib f with
  | .ok l => decide (l.length ≤ f.bits)
  | .error _ => true

/-- The field's value digits fill its declared bit width exactly. -/
def fullLen (f : GenField) : Bool :=
  match valueContrib f with
  | .ok l => decide (l.length = f.bits)
  | .error _ => true

/-- The special-case synthesis in `scrape_instrs`: copy a jump-and-link
instruction's fields, forcing the `rd` field to the integer constant 0 (same
columns, bits, mask and shift). -/
def synthUncondFields (flds : List GenField) : List GenField :=
  flds.map (fun f =>
    if f.value == .istr "rd" then
      { f with value := .inum 0, type := .CONST }
    else f)

/-! Concrete rows exercising the collapse phase of `find_form`. -/

/-- A row whose first maximal binary run (`["1"]` at index 1) has length one
while a later run (`["1", "0"]` at indices 3-4) has length two and is
interior. -/
def runFields : List FEntry :=
  [.fsingle 1 "rd", .fsingle 1 "1", .fsingle 1 "rs1",
   .fsingle 1 "1", .fsingle 1 "0", .fsingle 1 "rs2"]

/-- A catalog with one five-field form that matches `runFields` once the
later run is merged into a two-column constant. -/
def runForms : List Form :=
  [⟨"X", [⟨.istr "rd", .REG, 1, 1, 1, 0⟩, ⟨.istr "funct1", .CONST, 1, 1, 1, 0⟩,
          ⟨.istr "rs1", .REG, 1, 1, 1, 0⟩, ⟨.istr "funct2", .CONST, 2, 2, 3, 0⟩,
          ⟨.istr "rs2", .REG, 1, 1, 1, 0⟩]⟩]

/-- A row on which the first scan does find a collapsible run. -/
def runFields2 : List FEntry :=
  [.fsingle 1 "rd", .fsingle 1 "1", .fsingle 1 "0", .fsingle 1 "rs2"]

end RiscVGen

namespace RiscVDis

open RiscVGen

/-! ## The decoder data model

`instr_table.py` (generated by `export_instrs` in `gen.py`) defines the
namedtuples `RiscVInsCat(xlen, cat)`, `RiscVField(name, type, shift, mask,
flags)` and `RiscVIns(name, opcode, form, cat, mask, value, fields, flags)`;
`const.py` defines the category flags `RISCV_CAT` (an `IntFlag`, `C` is bit
16).  The decoder `RiscVDisasm` in `disasm.py` consumes them. -/

/-- `RISCV_CAT.I` from `const.py`. -/
def RISCV_CAT_I : Nat := 1

/-- `RISCV_CAT.C` from `const.py` (`1 << 16`). -/
def RISCV_CAT_C : Nat := 65536

/-- The `RiscVInsCat` namedtuple. -/
structure RiscVInsCat where
  xlen : Nat
  cat : Nat
deriving DecidableEq, Repr, Inhabited

/-- The `RiscVField` namedtuple (operand-field descriptor). -/
structure RiscVField where
  name : String
  type : Nat
  shift : Nat
  mask : Nat
  flags : Nat
deriving DecidableEq, Repr, Inhabited

/-- The `RiscVIns` namedtuple (one compiled instruction-table entry). -/
structure RiscVIns where
  name : String
  opcode : Nat
  form : Nat
  cat : List RiscVInsCat
  mask : Nat
  value : Nat
  fields : List RiscVField
  flags : Nat
deriving DecidableEq, Repr, Inhabited

/-- `count_bits` from `RiscVDisasm.setCategories`
(`sum(int(v) for v in format(value, 'b'))`), in structurally recursive
form (the fuel argument always suffices at `fuel = v`). -/
def count_bits_fuel : Nat → Nat → Nat
  | 0, _ => 0
  | fuel + 1, v => if v == 0 then 0 else v % 2 + count_bits_fuel fuel (v / 2)

/-- Population count of a mask. -/
def count_bits (value : Nat) : Nat := count_bits_fuel value value

/-- A per-mask value dictionary, insertion ordered. -/
abbrev Bucket := List (Nat × RiscVIns)

/-- A per-width mask table: ordered `(mask, value-dictionary)` pairs. -/
abbrev MTable := List (Nat × Bucket)

/-- Python `dict.get` on a bucket. -/
def lookupA (b : Bucket) (k : Nat) : Option RiscVIns :=
  (b.find? (fun p => p.1 == k)).map (fun p => p.2)

/-- Does the bucket already bind this value key? -/
def bucketHasKey (b : Bucket) (k : Nat) : Bool := b.any (fun p => p.1 == k)

/-- Append a binding to the bucket stored under `mask`. -/
def updBucket : MTable → Nat → Nat × RiscVIns → MTable
  | [], _, _ => []
  | (m, b) :: rest, mask, kv =>
    if m == mask then (m, b ++ [kv]) :: rest else (m, b) :: updBucket rest mask kv

/-- One step of the first loop of `setCategories`: make sure the mask key
exists, and — when some category of the entry has the configured register
width — insert the entry under its value, failing (`assert False`) on a
duplicate value. -/
def insertEntry (tbl : MTable) (e : RiscVIns) (keep : Bool) : Except Unit MTable :=
  match tbl.find? (fun p => p.1 == e.mask) with
  | none => .ok (tbl ++ [(e.mask, if keep then [(e.value, e)] else [])])
  | some (_, b) =>
    if keep then
      if bucketHasKey b e.value then .error ()
      else .ok (updBucket tbl e.mask (e.value, e))
    else .ok tbl

/-- `entry.cat[0].cat != RISCV_CAT.C`: `true` selects the 32-bit table. -/
def instrSize (e : RiscVIns) : Bool := e.cat.headI.cat != RISCV_CAT_C

/-- Accumulate the entries of one width class in instruction-list order. -/
def buildSize : List RiscVIns → Bool → Nat → MTable → Except Unit MTable
  | [], _, _, tbl => .ok tbl
  | e :: rest, sz, xlen, tbl =>
    if instrSize e == sz then
      match insertEntry tbl e (e.cat.any (fun c => c.xlen == xlen)) with
      | .error u => .error u
      | .ok tbl2 => buildSize rest sz xlen tbl2
    else buildSize rest sz xlen tbl

/-- Tuple order on `(count_bits mask, mask)` pairs, as Python `sorted` uses. -/
def keyLe (a b : Nat × Nat) : Prop :=
  a.1 < b.1 ∨ (a.1 = b.1 ∧ a.2 ≤ b.2)

/-- `m` is tried strictly before `m'` in the decoder's mask order: its
`(popcount, mask)` sort key is strictly greater. -/
def keyGT (m m' : Nat) : Prop :=
  count_bits m > count_bits m' ∨ (count_bits m = count_bits m' ∧ m > m')

instance : ∀ m m', Decidable (keyGT m m') := fun m m' => by
  unfold keyGT
  infer_instance

instance : DecidableRel keyLe := fun a b => by
  unfold keyLe
  infer_instance

instance : IsTotal (Nat × Nat) keyLe :=
  ⟨by intro a b; unfold keyLe; omega⟩

instance : IsTrans (Nat × Nat) keyLe :=
  ⟨by intro a b c; unfold keyLe; omega⟩

/-- The second loop of `setCategories`: sort the masks by ascending
`(popcount, mask)`, reverse, and rebuild the table in that order. -/
def sortMasks (tbl : MTable) : MTable :=
  let keyed := tbl.map (fun p => (count_bits p.1, p.1))
  let sortedKeys := (List.insertionSort keyLe keyed).reverse
  sortedKeys.map (fun k =>
    (k.2, ((tbl.find? (fun p => p.1 == k.2)).map (fun p => p.2)).getD []))

/-- The decoder's per-width tables (`self.instrs`): `t32` for `True` (32-bit),
`t16` for `False` (16-bit). -/
structure DecTable where
  t32 : MTable
  t16 : MTable
deriving DecidableEq, Repr, Inhabited

/-- `self.instrs[opcode_size]`. -/
def tblOf (t : DecTable) (sz32 : Bool) : MTable := if sz32 then t.t32 else t.t16

/-- `RiscVDisasm.setCategories`: build both width tables from the compiled
instruction list for a pointer size `psize` (register width `psize * 8`). -/
def setCategories (instrs : List RiscVIns) (psize : Nat) : Except Unit DecTable :=
  match buildSize instrs true (psize * 8) [] with
  | .error u => .error u
  | .ok a =>
    match buildSize instrs false (psize * 8) [] with
    | .error u => .error u
    | .ok b => .ok ⟨sortMasks a, sortMasks b⟩

/-- `struct.unpack_from` of `<I`/`>I`/`<H`/`>H` on a byte list; `endian = 0`
is little-endian (`envi.ENDIAN_LSB`, the default). -/
def readWord (endian : Nat) (sz32 : Bool) (bytez : List Nat) (offset : Nat) : Nat :=
  let b := fun i => bytez.getD (offset + i) 0
  if sz32 then
    if endian == 0 then b 0 + 256 * b 1 + 65536 * b 2 + 16777216 * b 3
    else b 3 + 256 * b 2 + 65536 * b 1 + 16777216 * b 0
  else
    if endian == 0 then b 0 + 256 * b 1
    else b 1 + 256 * b 0

/-- The decoder's failure modes: `IndexError` on an out-of-range first byte,
`struct.error` when too few bytes remain for the selected width, and the
typed `envi.InvalidInstruction` (carrying the instruction bytes, the word and
the address) when no mask/value entry matches. -/
inductive DisasmError where
  | indexError
  | structError
  | invalidInstruction (bytes : List Nat) (ival : Nat) (va : Nat)
deriving DecidableEq, Repr

/-- The decoded-instruction record constructed at the end of
`RiscVDisasm.disasm` (`RiscVOpcode(va, found.opcode, found.name,
opcode_bytes, opers, found.flags)`); operands are kept as the raw data the
operand constructors are called with. -/
structure RiscVOpcodeR where
  va : Nat
  opcode : Nat
  mnem : String
  size : Nat
  opers : List (RiscVField × Nat × Nat)
  iflags : Nat
deriving DecidableEq, Repr

/-- The mask loop of `disasm`: try each mask in table order, look the masked
word up in that mask's value dictionary, first hit wins. -/
def firstMatch : MTable → Nat → Option RiscVIns
  | [], _ => none
  | (m, b) :: rest, ival =>
    match lookupA b (ival &&& m) with
    | some e => some e
    | none => firstMatch rest ival

/-- `RiscVDisasm.disasm`: select the width class from the low two bits of the
first byte, read the word in the configured byte order, and scan the
per-width mask table. -/
def disasm (tbl : DecTable) (endian : Nat) (bytez : List Nat) (offset va : Nat) :
    Except DisasmError RiscVOpcodeR :=
  if offset < bytez.length then
    let sel := (bytez.getD offset 0) &&& 3 == 3
    let nbytes := if sel then 4 else 2
    if offset + nbytes ≤ bytez.length then
      let ival := readWord endian sel bytez offset
      match firstMatch (tblOf tbl sel) ival with
      | some found =>
        .ok ⟨va, found.opcode, found.name, nbytes,
             found.fields.map (fun f => (f, ival, va)), found.flags⟩
      | none => .error (.invalidInstruction ((bytez.drop offset).take nbytes) ival va)
    else .error .structError
  else .error .indexError

/-- The mnemonic of a decode result, when it succeeded. -/
def mnemOf (r : Except DisasmError RiscVOpcodeR) : Option String :=
  match r with
  | .ok o => some o.mnem
  | .error _ => none

/-- Mnemonic and byte length of a decode result, when it succeeded. -/
def obsOf (r : Except DisasmError RiscVOpcodeR) : Option (String × Nat) :=
  match r with
  | .ok o => some (o.mnem, o.size)
  | .error _ => none

/-! ## Concrete table entries

Modelled from the spec: the generated `instr_table.py` is not part of the
sources here, so the concrete entries below reproduce two of its rows from
the spec's description of the compiler — the JAL row of the unprivileged
table (20-bit immediate, 5-bit `rd`, opcode `1101111`) and the synthesized
unconditional jump `J` obtained by forcing JAL's `rd` field to the constant
zero (§4.3 of the spec); the masks and values are computed by the embedded
`get_instr_mask` exactly as the compiler computes them. -/

/-- JAL's field row as `get_field_info` produces it. -/
def jalGenFields : List GenField :=
  [⟨.istr "imm[20|10:1|11|19:12]", .IMM, 20, 20, 1048575, 12⟩,
   ⟨.istr "rd", .REG, 5, 5, 31, 7⟩,
   ⟨.istr "1101111", .CONST, 7, 7, 127, 0⟩]

/-- A compressed-table row of the C.JR shape, from the spec's description of
the compressed tables: a 4-bit binary funct4 `1000`, a 5-bit `rs1` register
field, a 5-bit register field forced to the constant written as the single
digit `0`, and the 2-bit quadrant `10`. The constant `0` contributes one
value digit against five mask digits, so the value and mask strings come out
of `get_instr_mask` misaligned. -/
def cjrGenFields : List GenField :=
  [⟨.istr "1000", .CONST, 4, 4, 15, 12⟩,
   ⟨.istr "rs1", .REG, 5, 5, 31, 7⟩,
   ⟨.istr "0", .CONST, 5, 5, 31, 2⟩,
   ⟨.istr "10", .CONST, 2, 2, 3, 0⟩]

/-- The compiled JAL entry (mask `0x7F`, value `0x6F`, category RV32I). -/
def jalIns : RiscVIns :=
  ⟨"JAL", 1, 1, [⟨32, RISCV_CAT_I⟩], 127, 111,
   [⟨"imm", 3, 12, 1048575, 0⟩, ⟨"rd", 1, 7, 31, 0⟩], 0⟩

/-- The synthesized `J` entry (mask `0xFFF`, value `0x6F`, category RV32I). -/
def jIns : RiscVIns :=
  ⟨"J", 2, 1, [⟨32, RISCV_CAT_I⟩], 4095, 111, [⟨"imm", 3, 12, 1048575, 0⟩], 0⟩

/-- The decoder tables built from the two-entry JAL/J list at pointer size 4. -/
def tblJJ : DecTable := ((setCategories [jalIns, jIns] 4).toOption).getD default

/-- An entry valid only at register width 64, for the width-filtering tests. -/
def ldIns64 : RiscVIns := ⟨"LD64", 3, 1, [⟨64, RISCV_CAT_I⟩], 127, 3, [], 0⟩

/-- The decoder tables built from `[jalIns, ldIns64]` at pointer size 4. -/
def tblJcap : DecTable := ((setCategories [jalIns, ldIns64] 4).toOption).getD default

end RiscVDis

namespace RiscVDis

/-! ## Helper lemmas about the decoder -/

/-- If no bucket of the table resolves the masked word, the mask loop finds
nothing. -/
theorem firstMatch_eq_none {L : MTable} {ival : Nat}
    (h : ∀ p ∈ L, lookupA p.2 (ival &&& p.1) = none) :
    firstMatch L ival = none := by
  induction L with
  | nil => rfl
  | cons p rest ih =>
    obtain ⟨m, b⟩ := p
    have hp := h (m, b) (List.mem_cons_self _ _)
    simp only [firstMatch]
    rw [hp]
    exact ih fun q hq => h q (List.mem_cons_of_mem _ hq)

/-- `x &&& 3` is `x % 4` (Python `word & 0x3`). -/
theorem land_three (x : Nat) : x &&& 3 = x % 4 := by
  apply Nat.eq_of_testBit_eq
  intro i
  rw [Nat.testBit_land, show (4 : Nat) = 2 ^ 2 by norm_num, Nat.testBit_mod_two_pow]
  match i with
  | 0 => simp [show Nat.testBit 3 0 = true by decide]
  | 1 => simp [show Nat.testBit 3 1 = true by decide]
  | i + 2 =>
    have h4 : (4 : Nat) ≤ 2 ^ (i + 2) := by
      calc (4 : Nat) = 2 ^ 2 := by norm_num
        _ ≤ 2 ^ (i + 2) := Nat.pow_le_pow_right (by norm_num) (by omega)
    rw [show Nat.testBit 3 (i + 2) = false from Nat.testBit_lt_two_pow (by omega)]
    simp

end RiscVDis

open RiscVGen RiscVDis

/-- C5 (counterexample): decoding at the odd (misaligned for the 32-bit
class) address `va = 1` does not fail at all — it performs the table lookup
and returns a decoded record (mnemonic `J`, 4 bytes), so no
`MisalignedAccessError` is raised before the lookup and a decoded result is
produced. -/
theorem c5_counterexample_misaligned_decode_succeeds :
    obsOf (disasm tblJJ 0 [111, 0, 0, 0] 0 1) = some ("J", 4) := by decide

/-- C5 (amended): `RiscVDisasm.disasm` performs no address-alignment check;
the decode outcome (success or failure, selected mnemonic and byte length)
is identical for every address `va`, aligned or not. -/
theorem c5_amended_va_independent (tbl : DecTable) (endian : Nat)
    (bytez : List Nat) (offset va₁ va₂ : Nat) :
    obsOf (disasm tbl endian bytez offset va₁) =
      obsOf (disasm tbl endian bytez offset va₂) := by
  simp only [disasm]
  repeat' split
  all_goals simp [obsOf]

/-- C6: when no `(mask, value)` entry of the selected width class matches the
word, `disasm` fails with the typed `envi.InvalidInstruction` error carrying
the instruction bytes, the word and the address — it neither crashes nor
returns a default record. -/
theorem c6_no_match_raises_invalid_instruction
    (tbl : DecTable) (bytez : List Nat) (offset va : Nat) (sel : Bool)
    (nbytes ival : Nat)
    (hsel : sel = ((bytez.getD offset 0) &&& 3 == 3))
    (hn : nbytes = if sel then 4 else 2)
    (hival : ival = readWord 0 sel bytez offset)
    (hoff : offset < bytez.length)
    (hlen : offset + nbytes ≤ bytez.length)
    (hnone : ∀ p ∈ tblOf tbl sel, lookupA p.2 (ival &&& p.1) = none) :
    disasm tbl 0 bytez offset va =
      .error (.invalidInstruction ((bytez.drop offset).take nbytes) ival va) := by
  subst hsel hn hival
  simp only [disasm]
  rw [if_pos hoff, if_pos hlen, firstMatch_eq_none hnone]

/-- C6 witness: the all-ones 32-bit word matches nothing in the JAL/J table
and decoding it returns the typed no-match error. -/
theorem c6_witness :
    (∀ p ∈ tblOf tblJJ true, lookupA p.2 (4294967295 &&& p.1) = none) ∧
      disasm tblJJ 0 [255, 255, 255, 255] 0 7 =
        .error (.invalidInstruction [255, 255, 255, 255] 4294967295 7) :=
  ⟨by decide,
   c6_no_match_raises_invalid_instruction tblJJ [255, 255, 255, 255] 0 7 true 4 4294967295
     (by decide) (by decide) (by decide) (by decide) (by decide) (by decide)⟩

/-- C2: on any byte sequence and offset on which a decode succeeds (with the
little-endian default), the returned byte length is 4 exactly when the low
two bits of the word are both set and 2 otherwise; the low two bits of the
word the decoder reads equal the low two bits of the byte at `offset`. -/
theorem c2_width_selection (tbl : DecTable) (bytez : List Nat) (offset va : Nat)
    (r : RiscVOpcodeR)
    (hok : disasm tbl 0 bytez offset va = .ok r) :
    (((bytez.getD offset 0) &&& 3 = 3) → r.size = 4) ∧
      (((bytez.getD offset 0) &&& 3 ≠ 3) → r.size = 2) ∧
      (readWord 0 ((bytez.getD offset 0) &&& 3 == 3) bytez offset) &&& 3 =
        (bytez.getD offset 0) &&& 3 := by
  have hword : (readWord 0 ((bytez.getD offset 0) &&& 3 == 3) bytez offset) &&& 3 =
      (bytez.getD offset 0) &&& 3 := by
    rw [land_three, land_three]
    simp only [readWord, Nat.add_zero, beq_self_eq_true, if_true]
    split <;> omega
  refine ⟨?_, ?_, hword⟩ <;>
    (intro hlow
     simp only [disasm] at hok
     repeat' split at hok
     all_goals try (injection hok with hok; subst hok)
     all_goals simp_all)

/-- C2 witness: the `J` word `0x6F` (low bits `11`) decodes in the JAL/J
table to a 4-byte record, and the word the decoder reads has the same low
two bits as the first byte. -/
theorem c2_witness :
    disasm tblJJ 0 [111, 0, 0, 0] 0 0 =
        .ok ⟨0, 2, "J", 4, [(⟨"imm", 3, 12, 1048575, 0⟩, 111, 0)], 0⟩ ∧
      ((((111 : Nat) &&& 3 = 3) →
          (RiscVOpcodeR.mk 0 2 "J" 4 [(⟨"imm", 3, 12, 1048575, 0⟩, 111, 0)] 0).size = 4) ∧
        (((111 : Nat) &&& 3 ≠ 3) →
          (RiscVOpcodeR.mk 0 2 "J" 4 [(⟨"imm", 3, 12, 1048575, 0⟩, 111, 0)] 0).size = 2) ∧
        (readWord 0 ((111 : Nat) &&& 3 == 3) [111, 0, 0, 0] 0) &&& 3 = (111 : Nat) &&& 3) :=
  ⟨by decide,
   c2_width_selection tblJJ [111, 0, 0, 0] 0 0
     ⟨0, 2, "J", 4, [(⟨"imm", 3, 12, 1048575, 0⟩, 111, 0)], 0⟩ (by decide)⟩

namespace RiscVGen

/-! ## Helper lemmas for the field classifier -/

/-- A decimal token starts with a digit. -/
theorem decValueB_head {cs : List Char} (h : decValueB cs = true) :
    ∃ c t, cs = c :: t ∧ c.isDigit = true := by
  unfold decValueB at h
  rw [Bool.and_eq_true] at h
  cases cs with
  | nil => simp at h
  | cons c t =>
    exact ⟨c, t, rfl, List.all_eq_true.mp h.2 c (by simp)⟩

/-- Binary tokens are decimal tokens. -/
theorem bin_imp_dec {cs : List Char} (h : binValueB cs = true) : decValueB cs = true := by
  unfold binValueB at h
  unfold decValueB
  rw [Bool.and_eq_true] at h ⊢
  refine ⟨h.1, List.all_eq_true.mpr ?_⟩
  intro c hcmem
  have hx := List.all_eq_true.mp h.2 c hcmem
  by_cases h0 : c = '0'
  · rw [h0]
    decide
  · by_cases h1 : c = '1'
    · rw [h1]
      decide
    · simp [h0, h1] at hx

/-- A decimal token never equals a fixed non-decimal literal. -/
theorem dec_no_str (lit : String) (hlit : decValueB lit.data = false) {cs : List Char}
    (hd : decValueB cs = true) : strIs lit cs = false := by
  by_contra hb
  rw [Bool.not_eq_false, strIs, beq_iff_eq] at hb
  rw [hb] at hd
  rw [hd] at hlit
  cases hlit

/-- A bracket-pattern match starts with the prefix and contains `[`. -/
theorem bracketPat_shape (pre : String) {cs : List Char} (h : bracketPat pre cs = true) :
    ∃ u, cs = pre.data ++ '[' :: u := by
  unfold bracketPat at h
  rw [Bool.and_eq_true] at h
  have hp := List.isPrefixOf_iff_prefix.mp h.1
  obtain ⟨u, hu⟩ := hp
  exact ⟨u, by rw [← hu, List.append_assoc]; rfl⟩

/-- A decimal token never matches a bracket pattern (it has no `[`). -/
theorem dec_no_bracket (pre : String) {cs : List Char} (hd : decValueB cs = true) :
    bracketPat pre cs = false := by
  by_contra hb
  rw [Bool.not_eq_false] at hb
  obtain ⟨u, rfl⟩ := bracketPat_shape pre hb
  unfold decValueB at hd
  rw [Bool.and_eq_true] at hd
  have := List.all_eq_true.mp hd.2 '[' (by simp)
  cases this

/-- Shape of an `rs[0-9]?` match. -/
theorem rsOptB_shape {cs : List Char} (h : rsOptB cs = true) :
    ∃ rest, cs = 'r' :: 's' :: rest := by
  unfold rsOptB at h
  split at h
  · rename_i rest
    exact ⟨rest, rfl⟩
  · cases h

/-- Shape of an `rd/rs[0-9]?` match. -/
theorem rdSlashRsB_shape {cs : List Char} (h : rdSlashRsB cs = true) :
    ∃ rest, cs = 'r' :: 'd' :: '/' :: rest := by
  unfold rdSlashRsB at h
  split at h
  · rename_i rest
    exact ⟨rest, rfl⟩
  · cases h

/-- Shape of a consumed `rs[0-9]?` guard head. -/
theorem afterRs_shape {cs u : List Char} (h : afterRs cs = some u) :
    ∃ rest, cs = 'r' :: 's' :: rest := by
  unfold afterRs at h
  split at h
  · rename_i rest
    exact ⟨rest, rfl⟩
  · cases h

/-- Shape of an `rd`-guard match. -/
theorem rdGuardB_shape {cs : List Char} (h : rdGuardB cs = true) :
    ∃ rest, cs = 'r' :: 'd' :: rest := by
  unfold rdGuardB at h
  split at h
  · rename_i rest
    exact ⟨rest, rfl⟩
  · cases h

/-- Shape of a `funct[0-9]` match. -/
theorem functB_shape {cs : List Char} (h : functB cs = true) :
    ∃ rest, cs = 'f' :: 'u' :: 'n' :: 'c' :: 't' :: rest := by
  unfold functB at h
  split at h
  · rename_i rest
    exact ⟨rest, rfl⟩
  · cases h

/-- A decimal token never matches a register-family pattern. -/
theorem reg_not_dec {cs : List Char} (hd : decValueB cs = true) :
    regValueB cs = false := by
  obtain ⟨c, t, rfl, hc⟩ := decValueB_head hd
  have hcr : c ≠ 'r' ∧ c ≠ '\\' := by
    constructor <;> (intro hcc; rw [hcc] at hc; cases hc)
  have h1 : rsOptB (c :: t) = false := by
    by_contra h
    rw [Bool.not_eq_false] at h
    obtain ⟨rest, heq⟩ := rsOptB_shape h
    exact hcr.1 (by injection heq)
  have h2 : rdSlashRsB (c :: t) = false := by
    by_contra h
    rw [Bool.not_eq_false] at h
    obtain ⟨rest, heq⟩ := rdSlashRsB_shape h
    exact hcr.1 (by injection heq)
  have h3 : rsSlashRdGuardB (c :: t) = false := by
    by_contra h
    rw [Bool.not_eq_false] at h
    unfold rsSlashRdGuardB at h
    split at h
    · rename_i u heq
      obtain ⟨rest, hr⟩ := afterRs_shape heq
      exact hcr.1 (by injection hr)
    · cases h
  have h4 : rsGuardB (c :: t) = false := by
    by_contra h
    rw [Bool.not_eq_false] at h
    unfold rsGuardB at h
    split at h
    · rename_i u heq
      obtain ⟨rest, hr⟩ := afterRs_shape heq
      exact hcr.1 (by injection hr)
    · cases h
  have h5 : rdGuardB (c :: t) = false := by
    by_contra h
    rw [Bool.not_eq_false] at h
    obtain ⟨rest, heq⟩ := rdGuardB_shape h
    exact hcr.1 (by injection heq)
  unfold regValueB regFieldB
  rw [h1, h2, h3, h4, h5,
    dec_no_str "rd" (by decide) hd,
    dec_no_str "\\rsoneprime" (by decide) hd,
    dec_no_str "\\rstwoprime" (by decide) hd,
    dec_no_str "\\rdprime" (by decide) hd,
    dec_no_str "\\rsoneprime/\\rdprime" (by decide) hd,
    dec_no_str "\\rstwoprime/\\rdprime" (by decide) hd,
    dec_no_str "\\rdprime/\\rsoneprime" (by decide) hd,
    dec_no_str "\\rdprime/\\rstwoprime" (by decide) hd]
  rfl

end RiscVGen

/-- C7: the field classifier `get_field_type` agrees with the specification's
four-group precedence (immediate-family, then decimal-constant, then
register-family, then required-binary-constant distinguishing `opcode`,
compressed `op` and rounding-mode `rm`) on every token, including the error
case for tokens matching no group. -/
theorem c7_classifier_precedence (s : String) :
    get_field_type s = classifySpecOrder s := by
  unfold get_field_type classifySpecOrder
  by_cases himm : immValueB s.data = true
  · simp [himm]
  · by_cases hdec : decValueB s.data = true
    · have hreg := reg_not_dec hdec
      have h1 := dec_no_str "opcode" (by decide) hdec
      have h2 := dec_no_str "op" (by decide) hdec
      have h3 := dec_no_str "rm" (by decide) hdec
      simp [himm, hdec, hreg, reqbinValueB, h1, h2, h3]
    · by_cases hreg : regValueB s.data = true
      · simp [himm, hdec, hreg]
      · have hbin : binValueB s.data = false := by
          by_contra hb
          rw [Bool.not_eq_false] at hb
          rw [bin_imp_dec hb] at hdec
          exact hdec rfl
        simp [himm, hdec, hreg, reqbinValueB, hbin]

namespace RiscVGen

/-! ## Helper lemmas for the form matcher -/

/-- A successful run scan returns a well-formed interior run: the start lies
before the stop and the stop is an index of the list. -/
theorem findRun_bounds {f : List FEntry} {st s t : Nat}
    (h : findRun f st = .ok (some (s, t))) : s < t ∧ t ≤ f.length := by
  simp only [findRun] at h
  split at h
  · simp at h
  · rename_i i hfind1
    split at h
    · simp at h
    · split at h
      · simp at h
      · rename_i j hfind2
        split at h
        · simp at h
        · simp only [Except.ok.injEq, Option.some.injEq, Prod.mk.injEq] at h
          have hi := (List.findIdx?_eq_some_iff_findIdx_eq.mp hfind1).1
          have hj := (List.findIdx?_eq_some_iff_findIdx_eq.mp hfind2).1
          simp only [List.length_drop] at hi hj
          omega

/-- The special-case grouping never lengthens a row. -/
theorem specialStep_length_le (l : List FEntry) : (specialStep l).length ≤ l.length := by
  simp only [specialStep]
  split
  · rename_i h
    simp only [Bool.or_eq_true, beq_iff_eq] at h
    have hlen : 3 ≤ l.length := by
      rcases h with (h | h) | h <;>
        (have key := congrArg List.length h
         simp [List.length_take] at key
         omega)
    simp [List.length_drop]
    omega
  · split
    · rename_i h
      simp only [beq_iff_eq] at h
      have hlen : 3 ≤ l.length := by
        have key := congrArg List.length h
        simp [List.length_take] at key
        omega
      simp [List.length_drop]
      omega
    · split
      · rename_i h
        simp only [beq_iff_eq] at h
        have hlen : 2 ≤ l.length := by
          by_contra hc
          have hnone : (List.map fname l)[1]? = none :=
            List.getElem?_eq_none (by simp; omega)
          rw [List.getD_eq_getElem?_getD, hnone] at h
          simp at h
        simp [List.length_drop]
        omega
      · split
        · rename_i h
          rw [Bool.and_eq_true] at h
          obtain ⟨ha', hb'⟩ := h
          have hlen : 3 ≤ l.length := by
            by_contra hc
            have hnone : (List.map fname l)[2]? = none :=
              List.getElem?_eq_none (by simp; omega)
            rw [List.getD_eq_getElem?_getD, hnone] at hb'
            simp at hb'
          simp [List.length_take, List.length_drop]
          omega
        · exact Nat.le_refl _

/-- Length of a collapsed row: the run of `t - s` cells becomes one cell. -/
theorem collapseRun_length {f : List FEntry} {s t : Nat}
    (h1 : s < t) (h2 : t ≤ f.length) :
    (collapseRun f s t).length = s + 1 + (f.length - t) := by
  simp [collapseRun, List.length_append, List.length_take, List.length_drop]
  omega

end RiscVGen

/-- C9: the collapse-and-retry recursion of `find_form` terminates because
every recursive call receives a strictly shorter field list: when a run scan
returns a run `[s, t)` with `t - s > 1`, the collapsed list passed to the
recursive call is strictly shorter than the original argument. -/
theorem c9_collapse_strictly_shrinks (fields : List FEntry) (k s t : Nat)
    (hrun : findRun (specialStep fields) k = .ok (some (s, t)))
    (hgt : t - s > 1) :
    (collapseRun (specialStep fields) s t).length < fields.length := by
  obtain ⟨hst, hle⟩ := findRun_bounds hrun
  rw [collapseRun_length hst hle]
  have := specialStep_length_le fields
  omega

/-- C9 witness: on a concrete row the run `[1, 3)` is found and the collapsed
list (3 cells) is strictly shorter than the original (4 cells). -/
theorem c9_witness :
    findRun (specialStep runFields2) 1 = .ok (some (1, 3)) ∧
      3 - 1 > 1 ∧
      (collapseRun (specialStep runFields2) 1 3).length < runFields2.length :=
  ⟨by decide, by decide,
   c9_collapse_strictly_shrinks runFields2 1 1 3 (by decide) (by decide)⟩

/-- C8 (counterexample): on `runFields` the longest interior run of adjacent
binary cells is `[3, 5)` (length 2 > 1), and collapsing it would match the
form `X` of `runForms` — yet `find_form` fails permanently with its no-match
error, because both of its scans stop at the *first* binary run (`[1, 2)`,
length 1) rather than searching for the longest one. -/
theorem c8_counterexample_first_run_not_longest :
    find_form runFields runForms = .error .noMatch ∧
      findRun (specialStep runFields) 3 = .ok (some (3, 5)) ∧
      5 - 3 > 1 ∧
      (tryForms (collapseRun (specialStep runFields) 3 5) runForms).isSome = true := by
  refine ⟨?_, by decide, by decide, by decide⟩
  unfold find_form
  decide

/-- C8 (amended): when direct matching fails, `find_form` collapses the
*first* (leftmost) interior maximal run of adjacent binary cells — scanning
first from the second field onward, then from the first — and retries
recursively only when that run has length greater than one; otherwise it
fails permanently, even when a longer collapsible run exists further right. -/
theorem c8_amended_first_run_collapse (fields : List FEntry) (forms : List Form) :
    (∀ s t, tryForms (specialStep fields) forms = none →
      findRun (specialStep fields) 1 = .ok (some (s, t)) → t - s > 1 →
      find_form fields forms = find_form (collapseRun (specialStep fields) s t) forms) ∧
    (∀ s t r1, tryForms (specialStep fields) forms = none →
      findRun (specialStep fields) 1 = .ok r1 →
      (r1 = none ∨ ∃ s' t', r1 = some (s', t') ∧ ¬t' - s' > 1) →
      findRun (specialStep fields) 0 = .ok (some (s, t)) → t - s > 1 →
      find_form fields forms = find_form (collapseRun (specialStep fields) s t) forms) ∧
    (∀ r1 r0, tryForms (specialStep fields) forms = none →
      findRun (specialStep fields) 1 = .ok r1 →
      findRun (specialStep fields) 0 = .ok r0 →
      (r1 = none ∨ ∃ s' t', r1 = some (s', t') ∧ ¬t' - s' > 1) →
      (r0 = none ∨ ∃ s' t', r0 = some (s', t') ∧ ¬t' - s' > 1) →
      find_form fields forms = .error .noMatch) := by
  refine ⟨?_, ?_, ?_⟩
  · intro s t htry h1 hgt
    conv_lhs => rw [find_form]
    rw [htry, h1]
    simp only [dif_pos hgt]
  · intro s t r1 htry h1 hr1 h0 hgt
    conv_lhs => rw [find_form]
    rcases hr1 with rfl | ⟨s', t', rfl, hshort⟩
    · rw [htry, h1, h0]
      simp only [dif_pos hgt]
    · rw [htry, h1, h0]
      simp only [dif_neg hshort, dif_pos hgt]
  · intro r1 r0 htry h1 h0 hr1 hr0
    conv_lhs => rw [find_form]
    rcases hr1 with rfl | ⟨s', t', rfl, hshort⟩
    · rcases hr0 with rfl | ⟨s2, t2, rfl, hshort0⟩
      · rw [htry, h1, h0]
      · rw [htry, h1, h0]
        simp only [dif_neg hshort0]
    · rcases hr0 with rfl | ⟨s2, t2, rfl, hshort0⟩
      · rw [htry, h1, h0]
        simp only [dif_neg hshort]
      · rw [htry, h1, h0]
        simp only [dif_neg hshort, dif_neg hshort0]

/-- C8 amended witness: on `runFields2` with an empty catalog, the first scan
finds the run `[1, 3)` of length 2 and `find_form` collapses it and
recurses. -/
theorem c8_amended_witness :
    tryForms (specialStep runFields2) ([] : List Form) = none ∧
      findRun (specialStep runFields2) 1 = .ok (some (1, 3)) ∧
      3 - 1 > 1 ∧
      find_form runFields2 [] =
        find_form (collapseRun (specialStep runFields2) 1 3) [] :=
  ⟨by decide, by decide, by decide,
   (c8_amended_first_run_collapse runFields2 []).1 1 3 (by decide) (by decide) (by decide)⟩

namespace RiscVGen

/-! ## Bit-string lemmas for `get_instr_mask` -/

theorem lsbToNat_cons (y : Bool) (l : List Bool) :
    lsbToNat (y :: l) = y.toNat + 2 * lsbToNat l := rfl

theorem lsbToNat_append (a b : List Bool) :
    lsbToNat (a ++ b) = lsbToNat a + 2 ^ a.length * lsbToNat b := by
  induction a with
  | nil => simp [lsbToNat]
  | cons x t ih =>
    rw [List.cons_append, lsbToNat_cons, lsbToNat_cons, ih, List.length_cons]
    ring

theorem bitsToNat_fold (n : Nat) (l : List Bool) :
    l.foldl (fun n b => 2 * n + b.toNat) n = n * 2 ^ l.length + bitsToNat l := by
  induction l generalizing n with
  | nil => simp [bitsToNat]
  | cons b t ih =>
    simp only [List.foldl_cons, List.length_cons, bitsToNat, Nat.mul_zero, Nat.zero_add]
    rw [ih (2 * n + b.toNat), ih b.toNat]
    ring

theorem bitsToNat_eq_lsb_reverse (l : List Bool) :
    bitsToNat l = lsbToNat l.reverse := by
  induction l with
  | nil => rfl
  | cons b t ih =>
    have h1 : bitsToNat (b :: t) = b.toNat * 2 ^ t.length + bitsToNat t := by
      show List.foldl _ 0 (b :: t) = _
      rw [List.foldl_cons, bitsToNat_fold]
      norm_num
    rw [h1, List.reverse_cons, lsbToNat_append, ih]
    simp [lsbToNat]
    ring

theorem testBit_lsbToNat (l : List Bool) (i : Nat) :
    (lsbToNat l).testBit i = l.getD i false := by
  induction l generalizing i with
  | nil => simp [lsbToNat, Nat.zero_testBit, List.getD]
  | cons b t ih =>
    match i with
    | 0 =>
      rw [show lsbToNat (b :: t) = b.toNat + 2 * lsbToNat t from rfl, Nat.testBit_zero]
      cases b <;> simp <;> omega
    | i + 1 =>
      rw [show lsbToNat (b :: t) = b.toNat + 2 * lsbToNat t from rfl, Nat.testBit_succ]
      have h2 : (b.toNat + 2 * lsbToNat t) / 2 = lsbToNat t := by
        cases b <;> simp <;> omega
      rw [h2, ih]
      simp [List.getD]

/-- Bit containment gives `x &&& y = x`. -/
theorem land_eq_self_of_testBit_subset {x y : Nat}
    (h : ∀ i, x.testBit i = true → y.testBit i = true) : x &&& y = x := by
  apply Nat.eq_of_testBit_eq
  intro i
  rw [Nat.testBit_land]
  cases hx : x.testBit i
  · simp
  · simp [h i hx]

/-- Bit containment gives `x & ~y == 0` on Python integers. -/
theorem ldiff_eq_zero_of_testBit_subset {x y : Nat}
    (h : ∀ i, x.testBit i = true → y.testBit i = true) : Nat.ldiff x y = 0 := by
  apply Nat.eq_of_testBit_eq
  intro i
  rw [Nat.testBit_ldiff, Nat.zero_testBit]
  cases hx : x.testBit i
  · simp
  · simp [h i hx]

theorem getD_append (a b : List Bool) (i : Nat) :
    (a ++ b).getD i false =
      if i < a.length then a.getD i false else b.getD (i - a.length) false := by
  rw [List.getD_eq_getElem?_getD, List.getElem?_append]
  split <;> rw [List.getD_eq_getElem?_getD]

theorem getD_reverse (l : List Bool) (i : Nat) :
    l.reverse.getD i false =
      if i < l.length then l.getD (l.length - 1 - i) false else false := by
  by_cases h : i < l.length
  · rw [List.getD_eq_getElem?_getD, List.getElem?_reverse (by simpa using h), if_pos h,
      List.getD_eq_getElem?_getD]
  · rw [List.getD_eq_getElem?_getD, List.getElem?_eq_none (by simp; omega), if_neg h]
    rfl

theorem getD_of_length_le {l : List Bool} {i : Nat} (h : l.length ≤ i) :
    l.getD i false = false := by
  rw [List.getD_eq_getElem?_getD, List.getElem?_eq_none h]
  rfl

theorem getD_replicate (n : Nat) (b : Bool) (i : Nat) :
    (List.replicate n b).getD i false = if i < n then b else false := by
  by_cases h : i < n <;>
    simp [List.getD_eq_getElem?_getD, List.getElem?_replicate, h]

theorem maskContrib_length (f : GenField) : (maskContrib f).length = f.bits := by
  unfold maskContrib
  split <;> simp

theorem maskParts_append (a b : List GenField) :
    maskParts (a ++ b) = maskParts a ++ maskParts b := by
  simp [maskParts]

theorem valueParts_cons_ok {f : GenField} {fs : List GenField} {vl : List Bool}
    (h : valueParts (f :: fs) = .ok vl) :
    ∃ c r, valueContrib f = .ok c ∧ valueParts fs = .ok r ∧ vl = c ++ r := by
  unfold valueParts at h
  cases hc : valueContrib f with
  | error e => rw [hc] at h; cases h
  | ok c =>
    rw [hc] at h
    cases hr : valueParts fs with
    | error e => rw [hr] at h; cases h
    | ok r =>
      rw [hr] at h
      injection h with h
      exact ⟨c, r, rfl, rfl, h.symm⟩

theorem valueParts_append_ok {a b : List GenField} {vl : List Bool}
    (h : valueParts (a ++ b) = .ok vl) :
    ∃ va vb, valueParts a = .ok va ∧ valueParts b = .ok vb ∧ vl = va ++ vb := by
  induction a generalizing vl with
  | nil =>
    exact ⟨[], vl, rfl, h, by simp⟩
  | cons f t ih =>
    rw [List.cons_append] at h
    obtain ⟨c, r, hc, hr, rfl⟩ := valueParts_cons_ok h
    obtain ⟨va, vb, hva, hvb, rfl⟩ := ih hr
    refine ⟨c ++ va, vb, ?_, hvb, by simp⟩
    unfold valueParts
    rw [hc, hva]

/-- The rest of the field list (every value contribution exactly `bits`
wide): its value digits sit in the same positions as its mask digits and are
covered by them. -/
theorem restSub (fs : List GenField) (vl : List Bool)
    (hfl : ∀ f ∈ fs, fullLen f = true)
    (hv : valueParts fs = .ok vl) :
    vl.length = (maskParts fs).length ∧
      (∀ i, vl.getD i false = true → (maskParts fs).getD i false = true) := by
  induction fs generalizing vl with
  | nil =>
    injection hv with hv
    subst hv
    exact ⟨rfl, by intro i h; cases h⟩
  | cons f t ih =>
    obtain ⟨c, r, hc, hr, rfl⟩ := valueParts_cons_ok hv
    have hlenc : c.length = f.bits := by
      have := hfl f (List.mem_cons_self _ _)
      unfold fullLen at this
      rw [hc] at this
      exact of_decide_eq_true this
    obtain ⟨ihl, ihp⟩ := ih r (fun g hg => hfl g (List.mem_cons_of_mem _ hg)) hr
    have hmp : maskParts (f :: t) = maskContrib f ++ maskParts t := by
      simp [maskParts]
    constructor
    · rw [hmp]
      simp [List.length_append, hlenc, maskContrib_length, ihl]
    · intro i hi
      rw [hmp, getD_append]
      rw [getD_append] at hi
      by_cases hic : i < c.length
      · rw [if_pos hic] at hi
        rw [if_pos (by rw [maskContrib_length]; omega)]
        by_cases hct : isConstType f.type = true
        · unfold maskContrib
          rw [if_pos hct, getD_replicate, if_pos (by omega)]
        · have : valueContrib f = .ok (List.replicate f.bits false) := by
            unfold valueContrib
            rw [if_neg hct]
          rw [this] at hc
          injection hc with hc
          rw [← hc, getD_replicate] at hi
          split at hi <;> cases hi
      · rw [if_neg hic] at hi
        rw [if_neg (by rw [maskContrib_length]; omega)]
        rw [maskContrib_length, ← hlenc]
        exact ihp _ hi

/-- Zero-contribution fields produce all-zero value digits. -/
theorem preZero (fs : List GenField) (vl : List Bool)
    (hz : ∀ f ∈ fs, zeroContrib f = true) (hv : valueParts fs = .ok vl) :
    ∀ i, vl.getD i false = false := by
  induction fs generalizing vl with
  | nil =>
    injection hv with hv
    subst hv
    intro i
    rfl
  | cons f t ih =>
    obtain ⟨c, r, hc, hr, rfl⟩ := valueParts_cons_ok hv
    have hcz : ∀ i, c.getD i false = false := by
      have := hz f (List.mem_cons_self _ _)
      unfold zeroContrib at this
      rw [hc] at this
      intro i
      by_cases hic : i < c.length
      · have hmem : c.getD i false ∈ c := by
          rw [List.getD_eq_getElem?_getD, List.getElem?_eq_getElem hic, Option.getD_some]
          exact List.getElem_mem hic
        have := List.all_eq_true.mp this _ hmem
        simpa using this
      · exact getD_of_length_le (by omega)
    intro i
    rw [getD_append]
    split
    · exact hcz i
    · exact ih r (fun g hg => hz g (List.mem_cons_of_mem _ hg)) hr _

end RiscVGen

/-- C4 (amended): the invariant holds only for rows of a restricted shape —
any all-zero-contribution prefix, then one field whose digits merely fit its
width (such as a trailing unpadded constant, e.g. the synthesized
unconditional-jump rows, whose forced `rd = 0` encodes as a single `'0'`
digit), then only fields whose digits fill their widths exactly; for such
rows the computed mask and value satisfy `value & mask == value` and
`value & ~mask == 0` (the latter in Python's arbitrary-precision integer
semantics, i.e. over `Int`). It is not unconditional: rows with an
underfilled constant followed by further fields violate it. -/
theorem c4_mask_value_invariant (pre : List GenField) (f0 : GenField)
    (rest : List GenField) (m v : Nat)
    (hz : ∀ f ∈ pre, zeroContrib f = true)
    (hle : vlenLe f0 = true)
    (hfl : ∀ f ∈ rest, fullLen f = true)
    (hok : get_instr_mask (pre ++ f0 :: rest) = .ok (m, v)) :
    v &&& m = v ∧ Int.land (v : Int) (Int.lnot (m : Int)) = 0 := by
  unfold get_instr_mask at hok
  cases hvp : valueParts (pre ++ f0 :: rest) with
  | error e => rw [hvp] at hok; cases hok
  | ok vl =>
    rw [hvp] at hok
    split at hok
    · rename_i e heq
      simp at heq
    · rename_i vl' heq
      injection heq with heq
      subst heq
      split at hok
      · simp at hok
      · split at hok
        · simp at hok
        · rw [Except.ok.injEq, Prod.mk.injEq] at hok
          obtain ⟨hm, hv⟩ := hok
          subst hm hv
          obtain ⟨va, vbc, hva, hvbc, rfl⟩ := valueParts_append_ok hvp
          obtain ⟨c0, r, hc0, hr, rfl⟩ := valueParts_cons_ok hvbc
          have hml : maskParts (pre ++ f0 :: rest) =
              maskParts pre ++ (maskContrib f0 ++ maskParts rest) := by
            rw [maskParts_append]
            rfl
          obtain ⟨hrl, hrp⟩ := restSub rest r hfl hr
          have hvaz := preZero pre va hz hva
          have hc0len : c0.length ≤ f0.bits := by
            unfold vlenLe at hle
            rw [hc0] at hle
            exact of_decide_eq_true hle
          have hsub : ∀ i, (bitsToNat (va ++ (c0 ++ r))).testBit i = true →
              (bitsToNat (maskParts (pre ++ f0 :: rest))).testBit i = true := by
            intro i hbit
            rw [bitsToNat_eq_lsb_reverse, testBit_lsbToNat] at hbit
            rw [bitsToNat_eq_lsb_reverse, testBit_lsbToNat, hml]
            rw [List.reverse_append, List.reverse_append] at hbit
            rw [List.reverse_append, List.reverse_append]
            rw [getD_append] at hbit
            rw [getD_append]
            have hm0len : (maskContrib f0).length = f0.bits := maskContrib_length f0
            simp only [List.length_append, List.length_reverse] at hbit ⊢
            by_cases houter : i < r.length + c0.length
            · rw [if_pos houter] at hbit
              rw [if_pos (by omega)]
              rw [getD_append] at hbit
              rw [getD_append]
              simp only [List.length_reverse] at hbit ⊢
              by_cases hir : i < r.length
              · rw [if_pos hir] at hbit
                rw [if_pos (by omega)]
                rw [getD_reverse, if_pos hir] at hbit
                rw [getD_reverse, if_pos (by omega), ← hrl]
                exact hrp _ hbit
              · rw [if_neg hir] at hbit
                rw [if_neg (by omega)]
                by_cases hct : isConstType f0.type = true
                · unfold maskContrib
                  rw [if_pos hct, List.reverse_replicate, getD_replicate,
                    if_pos (by omega)]
                · exfalso
                  have hrep : valueContrib f0 = .ok (List.replicate f0.bits false) := by
                    unfold valueContrib
                    rw [if_neg hct]
                  rw [hrep] at hc0
                  injection hc0 with hc0
                  rw [← hc0, List.reverse_replicate, getD_replicate] at hbit
                  split at hbit <;> cases hbit
            · exfalso
              rw [if_neg houter, getD_reverse] at hbit
              split at hbit
              · rw [hvaz] at hbit
                cases hbit
              · cases hbit
          constructor
          · exact land_eq_self_of_testBit_subset hsub
          · have hld := ldiff_eq_zero_of_testBit_subset hsub
            have hcast : Int.land ((bitsToNat (va ++ (c0 ++ r)) : Nat) : Int)
                (Int.lnot ((bitsToNat (maskParts (pre ++ f0 :: rest)) : Nat) : Int)) =
                ((Nat.ldiff (bitsToNat (va ++ (c0 ++ r)))
                  (bitsToNat (maskParts (pre ++ f0 :: rest))) : Nat) : Int) := rfl
            rw [hcast, hld]
            rfl

/-- C4 witness: the synthesized `J` fields (all-zero immediate prefix, the
forced `rd = 0` constant whose digits underfill its 5 bits, and the full-width
opcode) satisfy the invariant at the computed `(mask, value) = (0xFFF, 0x6F)`. -/
theorem c4_witness :
    synthUncondFields jalGenFields =
        [⟨.istr "imm[20|10:1|11|19:12]", .IMM, 20, 20, 1048575, 12⟩] ++
          ⟨.inum 0, .CONST, 5, 5, 31, 7⟩ ::
            [⟨.istr "1101111", .CONST, 7, 7, 127, 0⟩] ∧
      (∀ f ∈ [(⟨.istr "imm[20|10:1|11|19:12]", .IMM, 20, 20, 1048575, 12⟩ : GenField)],
        zeroContrib f = true) ∧
      vlenLe ⟨.inum 0, .CONST, 5, 5, 31, 7⟩ = true ∧
      (∀ f ∈ [(⟨.istr "1101111", .CONST, 7, 7, 127, 0⟩ : GenField)], fullLen f = true) ∧
      get_instr_mask
          ([⟨.istr "imm[20|10:1|11|19:12]", .IMM, 20, 20, 1048575, 12⟩] ++
            ⟨.inum 0, .CONST, 5, 5, 31, 7⟩ ::
              [⟨.istr "1101111", .CONST, 7, 7, 127, 0⟩]) = .ok (4095, 111) ∧
      (111 &&& 4095 = 111 ∧ Int.land (111 : Int) (Int.lnot (4095 : Int)) = 0) :=
  ⟨by decide, by decide, by decide, by decide, by decide,
   c4_mask_value_invariant
     [⟨.istr "imm[20|10:1|11|19:12]", .IMM, 20, 20, 1048575, 12⟩]
     ⟨.inum 0, .CONST, 5, 5, 31, 7⟩
     [⟨.istr "1101111", .CONST, 7, 7, 127, 0⟩] 4095 111
     (by decide) (by decide) (by decide) (by decide)⟩

namespace RiscVDis

/-! ## Popcount lemmas -/

theorem count_bits_fuel_zero (fuel : Nat) : count_bits_fuel fuel 0 = 0 := by
  cases fuel <;> simp [count_bits_fuel]

theorem count_bits_fuel_inv (f1 : Nat) :
    ∀ f2 v, v ≤ f1 → v ≤ f2 → count_bits_fuel f1 v = count_bits_fuel f2 v := by
  induction f1 with
  | zero =>
    intro f2 v h1 h2
    have : v = 0 := by omega
    subst this
    rw [count_bits_fuel_zero, count_bits_fuel_zero]
  | succ k ih =>
    intro f2 v h1 h2
    match f2 with
    | 0 =>
      have : v = 0 := by omega
      subst this
      rw [count_bits_fuel_zero, count_bits_fuel_zero]
    | f2' + 1 =>
      by_cases hv : v = 0
      · subst hv
        rw [count_bits_fuel_zero, count_bits_fuel_zero]
      · simp only [count_bits_fuel, hv, if_neg (by simpa using hv)]
        rw [ih f2' (v / 2) (by omega) (by omega)]

theorem count_bits_rec {v : Nat} (hv : v ≠ 0) :
    count_bits v = v % 2 + count_bits (v / 2) := by
  unfold count_bits
  match v, hv with
  | k + 1, _ =>
    have h1 : count_bits_fuel (k + 1) (k + 1) =
        (k + 1) % 2 + count_bits_fuel k ((k + 1) / 2) := by
      simp [count_bits_fuel]
    rw [h1, count_bits_fuel_inv k ((k + 1) / 2) ((k + 1) / 2) (by omega) (by omega)]

theorem count_bits_eq_sum (k : Nat) :
    ∀ v, v < 2 ^ k →
      count_bits v = (Finset.range k).sum (fun i => (v.testBit i).toNat) := by
  induction k with
  | zero =>
    intro v hv
    have : v = 0 := by simpa using hv
    subst this
    simp [count_bits, count_bits_fuel_zero]
  | succ k ih =>
    intro v hv
    by_cases hz : v = 0
    · subst hz
      simp [count_bits, count_bits_fuel_zero, Nat.zero_testBit]
    · rw [count_bits_rec hz, Finset.sum_range_succ']
      have hdiv : v / 2 < 2 ^ k := by
        rw [Nat.pow_succ] at hv
        omega
      rw [ih (v / 2) hdiv]
      have hb0 : (v.testBit 0).toNat = v % 2 := by
        rw [Nat.testBit_zero]
        rcases Nat.mod_two_eq_zero_or_one v with h | h <;> simp [h]
      have hbs : ∀ i, ((v / 2).testBit i).toNat = (v.testBit (i + 1)).toNat := by
        intro i
        rw [Nat.testBit_succ]
      simp only [hbs, hb0]
      omega

/-- A proper bit-subset has strictly smaller popcount: this is why the
descending-popcount order tries the more specific mask first. -/
theorem count_bits_lt_of_proper_subset {M1 M2 : Nat}
    (hsub : M1 &&& M2 = M1) (hne : M1 ≠ M2) :
    count_bits M1 < count_bits M2 := by
  have hbit : ∀ i, M1.testBit i = true → M2.testBit i = true := by
    intro i h1
    have := congrArg (fun x => Nat.testBit x i) hsub
    simp only [Nat.testBit_land] at this
    rw [h1] at this
    simpa using this.symm
  obtain ⟨j, hj⟩ : ∃ j, M1.testBit j ≠ M2.testBit j := by
    by_contra hc
    push_neg at hc
    exact hne (Nat.eq_of_testBit_eq hc)
  have hj1 : M1.testBit j = false := by
    cases h : M1.testBit j
    · rfl
    · exfalso
      apply hj
      rw [h, hbit j h]
  have hj2 : M2.testBit j = true := by
    cases h : M2.testBit j
    · rw [hj1, h] at hj
      exact absurd rfl hj
    · rfl
  set k := M1 + M2 + 1 with hk
  have h1k : M1 < 2 ^ k := by
    calc M1 < 2 ^ M1 := Nat.lt_two_pow M1
      _ ≤ 2 ^ k := Nat.pow_le_pow_right (by norm_num) (by omega)
  have h2k : M2 < 2 ^ k := by
    calc M2 < 2 ^ M2 := Nat.lt_two_pow M2
      _ ≤ 2 ^ k := Nat.pow_le_pow_right (by norm_num) (by omega)
  have hjk : j < k := by
    by_contra hc
    push_neg at hc
    have : M2 < 2 ^ j :=
      lt_of_lt_of_le h2k (Nat.pow_le_pow_right (by norm_num) hc)
    rw [Nat.testBit_lt_two_pow this] at hj2
    cases hj2
  rw [count_bits_eq_sum k M1 h1k, count_bits_eq_sum k M2 h2k]
  refine Finset.sum_lt_sum (fun i _ => ?_) ⟨j, Finset.mem_range.mpr hjk, ?_⟩
  · cases h : M1.testBit i
    · simp
    · rw [hbit i h]
  · rw [hj1, hj2]
    simp

end RiscVDis

namespace RiscVDis

/-! ## Table construction invariants -/

theorem updBucket_keys (tbl : MTable) (k : Nat) (kv : Nat × RiscVIns) :
    (updBucket tbl k kv).map (fun p => p.1) = tbl.map (fun p => p.1) := by
  induction tbl with
  | nil => rfl
  | cons hd rest ih =>
    obtain ⟨m0, b0⟩ := hd
    simp only [updBucket]
    split <;> simp [ih]

theorem updBucket_mem {tbl : MTable} {k : Nat} {kv : Nat × RiscVIns} {m : Nat} {b : Bucket}
    (h : (m, b) ∈ updBucket tbl k kv) :
    (m, b) ∈ tbl ∨ ∃ b0, (m, b0) ∈ tbl ∧ b = b0 ++ [kv] := by
  induction tbl with
  | nil => cases h
  | cons hd rest ih =>
    obtain ⟨m0, b0⟩ := hd
    simp only [updBucket] at h
    split at h
    · rcases List.mem_cons.mp h with heq | htail
      · injection heq with h1 h2
        subst h1
        exact Or.inr ⟨b0, List.mem_cons_self _ _, h2.symm ▸ rfl⟩
      · exact Or.inl (List.mem_cons_of_mem _ htail)
    · rcases List.mem_cons.mp h with heq | htail
      · exact Or.inl (heq ▸ List.mem_cons_self _ _)
      · rcases ih htail with h1 | ⟨b1, hb1, hb2⟩
        · exact Or.inl (List.mem_cons_of_mem _ h1)
        · exact Or.inr ⟨b1, List.mem_cons_of_mem _ hb1, hb2⟩

theorem insertEntry_keys {tbl tbl' : MTable} {e : RiscVIns} {keep : Bool}
    (h : insertEntry tbl e keep = .ok tbl') :
    tbl'.map (fun p => p.1) = tbl.map (fun p => p.1) ∨
      (tbl'.map (fun p => p.1) = tbl.map (fun p => p.1) ++ [e.mask] ∧
        e.mask ∉ tbl.map (fun p => p.1)) := by
  unfold insertEntry at h
  split at h
  · rename_i hf
    injection h with h
    right
    constructor
    · rw [← h]
      simp
    · rw [List.find?_eq_none] at hf
      intro hmem
      rw [List.mem_map] at hmem
      obtain ⟨p, hp, hpe⟩ := hmem
      exact hf p hp (by simp [hpe])
  · split at h
    · split at h
      · cases h
      · injection h with h
        left
        rw [← h, updBucket_keys]
    · injection h with h
      left
      rw [← h]

theorem insertEntry_mem {tbl tbl' : MTable} {e : RiscVIns} {keep : Bool}
    (h : insertEntry tbl e keep = .ok tbl') {m : Nat} {b : Bucket}
    (hmem : (m, b) ∈ tbl') :
    (m, b) ∈ tbl ∨ b = [] ∨
      (keep = true ∧ (b = [(e.value, e)] ∨ ∃ b0, (m, b0) ∈ tbl ∧ b = b0 ++ [(e.value, e)])) := by
  unfold insertEntry at h
  split at h
  · injection h with h
    rw [← h] at hmem
    rcases List.mem_append.mp hmem with h1 | h2
    · exact Or.inl h1
    · simp only [List.mem_singleton] at h2
      injection h2 with h2a h2b
      cases hk : keep
      · rw [hk] at h2b
        exact Or.inr (Or.inl h2b)
      · rw [hk] at h2b
        exact Or.inr (Or.inr ⟨rfl, Or.inl h2b⟩)
  · split at h
    · rename_i hk
      split at h
      · cases h
      · injection h with h
        rw [← h] at hmem
        rcases updBucket_mem hmem with h1 | ⟨b1, hb1, hb2⟩
        · exact Or.inl h1
        · exact Or.inr (Or.inr ⟨hk, Or.inr ⟨b1, hb1, hb2⟩⟩)
    · injection h with h
      rw [← h] at hmem
      exact Or.inl hmem

theorem buildSize_nodup_keys :
    ∀ (instrs : List RiscVIns) (sz : Bool) (xlen : Nat) (tbl tbl' : MTable),
      (tbl.map (fun p => p.1)).Nodup → buildSize instrs sz xlen tbl = .ok tbl' →
      (tbl'.map (fun p => p.1)).Nodup := by
  intro instrs
  induction instrs with
  | nil =>
    intro sz xlen tbl tbl' hnd h
    injection h with h
    rw [← h]
    exact hnd
  | cons e rest ih =>
    intro sz xlen tbl tbl' hnd h
    simp only [buildSize] at h
    split at h
    · cases hins : insertEntry tbl e (e.cat.any fun c => c.xlen == xlen) with
      | error u => rw [hins] at h; cases h
      | ok t2 =>
        rw [hins] at h
        refine ih sz xlen t2 tbl' ?_ h
        rcases insertEntry_keys hins with hsame | ⟨happ, hfresh⟩
        · rw [hsame]; exact hnd
        · rw [happ]
          rw [List.nodup_append]
          exact ⟨hnd, List.nodup_singleton _, by simpa using hfresh⟩
    · exact ih sz xlen tbl tbl' hnd h

theorem buildSize_xlen :
    ∀ (instrs : List RiscVIns) (sz : Bool) (xlen : Nat) (tbl tbl' : MTable),
      (∀ m b, (m, b) ∈ tbl → ∀ v e, (v, e) ∈ b →
        e.cat.any (fun c => c.xlen == xlen) = true) →
      buildSize instrs sz xlen tbl = .ok tbl' →
      ∀ m b, (m, b) ∈ tbl' → ∀ v e, (v, e) ∈ b →
        e.cat.any (fun c => c.xlen == xlen) = true := by
  intro instrs
  induction instrs with
  | nil =>
    intro sz xlen tbl tbl' hinv h
    injection h with h
    rw [← h]
    exact hinv
  | cons e0 rest ih =>
    intro sz xlen tbl tbl' hinv h
    simp only [buildSize] at h
    split at h
    · cases hins : insertEntry tbl e0 (e0.cat.any fun c => c.xlen == xlen) with
      | error u => rw [hins] at h; cases h
      | ok t2 =>
        rw [hins] at h
        refine ih sz xlen t2 tbl' ?_ h
        intro m b hmb v e hve
        rcases insertEntry_mem hins hmb with h1 | h2 | ⟨hk, h3 | ⟨b0, hb0, rfl⟩⟩
        · exact hinv m b h1 v e hve
        · rw [h2] at hve; cases hve
        · rw [h3] at hve
          simp only [List.mem_singleton] at hve
          injection hve with hv1 hv2
          rw [hv2]
          exact hk
        · rcases List.mem_append.mp hve with h4 | h5
          · exact hinv m b0 hb0 v e h4
          · simp only [List.mem_singleton] at h5
            injection h5 with hv1 hv2
            rw [hv2]
            exact hk
    · exact ih sz xlen tbl tbl' hinv h

end RiscVDis

namespace RiscVDis

/-! ## Properties of the sorted mask table -/

theorem sortMasks_pairwise (tbl : MTable) :
    (sortMasks tbl).Pairwise
      (fun p q => keyLe (count_bits q.1, q.1) (count_bits p.1, p.1)) := by
  unfold sortMasks
  rw [List.pairwise_map]
  have hsorted : (List.insertionSort keyLe (tbl.map fun p => (count_bits p.1, p.1))).Sorted keyLe :=
    List.sorted_insertionSort keyLe _
  have hrev := List.pairwise_reverse.mpr hsorted
  have hel : ∀ k ∈ (List.insertionSort keyLe (tbl.map fun p => (count_bits p.1, p.1))).reverse,
      k.1 = count_bits k.2 := by
    intro k hk
    rw [List.mem_reverse] at hk
    have hk2 : k ∈ tbl.map (fun p => (count_bits p.1, p.1)) :=
      ((List.perm_insertionSort keyLe _).mem_iff).mp hk
    obtain ⟨p, hp, hpe⟩ := List.mem_map.mp hk2
    rw [← hpe]
  refine List.Pairwise.imp_of_mem ?_ hrev
  intro a b ha hb hab
  have ha2 := hel a ha
  have hb2 := hel b hb
  obtain ⟨a1, a2⟩ := a
  obtain ⟨b1, b2⟩ := b
  simp only at ha2 hb2
  subst ha2 hb2
  exact hab

theorem sortMasks_keys_nodup {tbl : MTable}
    (h : (tbl.map (fun p => p.1)).Nodup) :
    ((sortMasks tbl).map (fun p => p.1)).Nodup := by
  unfold sortMasks
  rw [List.map_map]
  have hperm :
      ((List.insertionSort keyLe (tbl.map fun p => (count_bits p.1, p.1))).reverse.map
          (fun k : Nat × Nat => k.2)).Perm
        ((tbl.map fun p => (count_bits p.1, p.1)).map (fun k : Nat × Nat => k.2)) :=
    ((List.reverse_perm _).trans (List.perm_insertionSort keyLe _)).map _
  have hmm : ((tbl.map fun p => (count_bits p.1, p.1)).map (fun k : Nat × Nat => k.2)) =
      tbl.map (fun p => p.1) := by
    rw [List.map_map]
    rfl
  have hbase : ((List.insertionSort keyLe (tbl.map fun p => (count_bits p.1, p.1))).reverse.map
      (fun k : Nat × Nat => k.2)).Nodup := by
    rw [hperm.nodup_iff, hmm]
    exact h
  have hcomp :
      ((fun p : Nat × Bucket => p.1) ∘
        (fun k : Nat × Nat =>
          (k.2, ((tbl.find? (fun p => p.1 == k.2)).map (fun p => p.2)).getD []))) =
      (fun k : Nat × Nat => k.2) := by
    funext k
    rfl
  rw [hcomp]
  exact hbase

theorem sortMasks_mem {tbl : MTable} {m : Nat} {b : Bucket}
    (h : (m, b) ∈ sortMasks tbl) : b = [] ∨ (m, b) ∈ tbl := by
  unfold sortMasks at h
  rw [List.mem_map] at h
  obtain ⟨k, hk, heq⟩ := h
  cases hf : tbl.find? (fun p => p.1 == k.2) with
  | none =>
    rw [hf] at heq
    injection heq with h1 h2
    left
    rw [← h2]
    rfl
  | some p =>
    right
    rw [hf] at heq
    injection heq with h1 h2
    have hpred := List.find?_some hf
    have hpmem := List.mem_of_find?_eq_some hf
    have hpm : p.1 = k.2 := by simpa using hpred
    have : (m, b) = p := by
      obtain ⟨p1, p2⟩ := p
      simp only at hpm h2
      rw [← h1, ← h2, hpm]
      rfl
    rw [this]
    exact hpmem

/-! ## The decoder tries buckets in strictly decreasing key order -/

theorem firstMatch_sel {L : MTable} {ival : Nat} {e : RiscVIns} {mask : Nat} {b : Bucket}
    (hpw : L.Pairwise (fun p q => keyLe (count_bits q.1, q.1) (count_bits p.1, p.1)))
    (hnd : (L.map (fun p => p.1)).Nodup)
    (hmem : (mask, b) ∈ L)
    (hlook : lookupA b (ival &&& mask) = some e)
    (hearly : ∀ p ∈ L, keyGT p.1 mask → lookupA p.2 (ival &&& p.1) = none) :
    firstMatch L ival = some e := by
  induction L with
  | nil => cases hmem
  | cons hd rest ih =>
    obtain ⟨m0, b0⟩ := hd
    rcases List.mem_cons.mp hmem with heq | htail
    · injection heq with h1 h2
      subst h1
      subst h2
      simp only [firstMatch]
      rw [hlook]
    · have hkey : keyLe (count_bits mask, mask) (count_bits m0, m0) :=
        (List.pairwise_cons.mp hpw).1 (mask, b) htail
      by_cases hgt : keyGT m0 mask
      · have hnone := hearly (m0, b0) (List.mem_cons_self _ _) hgt
        simp only [firstMatch]
        simp only at hnone
        rw [hnone]
        refine ih (List.pairwise_cons.mp hpw).2 ?_ htail ?_
        · exact (List.nodup_cons.mp hnd).2
        · intro p hp hpgt
          exact hearly p (List.mem_cons_of_mem _ hp) hpgt
      · exfalso
        unfold keyLe at hkey
        unfold keyGT at hgt
        simp only at hkey
        have hm : m0 = mask := by omega
        have hmaskmem : mask ∈ rest.map (fun p => p.1) :=
          List.mem_map.mpr ⟨(mask, b), htail, rfl⟩
        have := (List.nodup_cons.mp hnd).1
        simp only at this
        rw [hm] at this
        exact this hmaskmem

end RiscVDis

namespace RiscVDis

/-! ## Shape of the tables produced by `setCategories` -/

theorem setCategories_tbl {instrs : List RiscVIns} {psize : Nat} {tbl : DecTable}
    (hok : setCategories instrs psize = .ok tbl) (sz : Bool) :
    ∃ a, buildSize instrs sz (psize * 8) [] = .ok a ∧ tblOf tbl sz = sortMasks a := by
  unfold setCategories at hok
  split at hok
  · cases hok
  · rename_i a ha
    split at hok
    · cases hok
    · rename_i b hb
      injection hok with hok
      cases sz
      · exact ⟨b, hb, by rw [← hok]; rfl⟩
      · exact ⟨a, ha, by rw [← hok]; rfl⟩

theorem tblOf_pairwise {instrs : List RiscVIns} {psize : Nat} {tbl : DecTable}
    (hok : setCategories instrs psize = .ok tbl) (sz : Bool) :
    (tblOf tbl sz).Pairwise
      (fun p q => keyLe (count_bits q.1, q.1) (count_bits p.1, p.1)) := by
  obtain ⟨a, _, he⟩ := setCategories_tbl hok sz
  rw [he]
  exact sortMasks_pairwise a

theorem tblOf_keys_nodup {instrs : List RiscVIns} {psize : Nat} {tbl : DecTable}
    (hok : setCategories instrs psize = .ok tbl) (sz : Bool) :
    ((tblOf tbl sz).map (fun p => p.1)).Nodup := by
  obtain ⟨a, ha, he⟩ := setCategories_tbl hok sz
  rw [he]
  exact sortMasks_keys_nodup
    (buildSize_nodup_keys instrs sz (psize * 8) [] a (by simp) ha)

theorem tblOf_xlen {instrs : List RiscVIns} {psize : Nat} {tbl : DecTable}
    (hok : setCategories instrs psize = .ok tbl) (sz : Bool) {m : Nat} {b : Bucket}
    (hmb : (m, b) ∈ tblOf tbl sz) {v : Nat} {e : RiscVIns} (hve : (v, e) ∈ b) :
    e.cat.any (fun c => c.xlen == psize * 8) = true := by
  obtain ⟨a, ha, he⟩ := setCategories_tbl hok sz
  rw [he] at hmb
  rcases sortMasks_mem hmb with hb | hmem
  · rw [hb] at hve
    cases hve
  · exact buildSize_xlen instrs sz (psize * 8) [] a
      (by intro m b h; cases h) ha m b hmem v e hve

/-- A successful bucket lookup returns an entry stored under the looked-up
value key. -/
theorem lookupA_mem {b : Bucket} {k : Nat} {e : RiscVIns}
    (h : lookupA b k = some e) : (k, e) ∈ b := by
  unfold lookupA at h
  rw [Option.map_eq_some'] at h
  obtain ⟨p, hf, hpe⟩ := h
  obtain ⟨p1, p2⟩ := p
  have hpred := List.find?_some hf
  have hmem := List.mem_of_find?_eq_some hf
  simp only at hpred hpe
  have hk : p1 = k := by simpa using hpred
  rw [← hpe, ← hk]
  exact hmem

/-- Whatever the mask scan returns is stored in some bucket of the table. -/
theorem firstMatch_mem {L : MTable} {ival : Nat} {e : RiscVIns}
    (h : firstMatch L ival = some e) :
    ∃ m b, (m, b) ∈ L ∧ (ival &&& m, e) ∈ b := by
  induction L with
  | nil => cases h
  | cons hd rest ih =>
    obtain ⟨m0, b0⟩ := hd
    simp only [firstMatch] at h
    split at h
    · rename_i e0 hl
      injection h with h
      subst h
      exact ⟨m0, b0, List.mem_cons_self _ _, lookupA_mem hl⟩
    · obtain ⟨m, b, h1, h2⟩ := ih h
      exact ⟨m, b, List.mem_cons_of_mem _ h1, h2⟩

end RiscVDis

/-- C10: after decoder construction at pointer size `psize`, every entry
stored in either per-width mask table has at least one category whose
`xlen` equals `psize * 8`, and consequently every successful decode on
that decoder returns a record whose mnemonic comes from such an entry —
instructions valid only under other register widths are never present and
never returned. -/
theorem c10_xlen_filter (instrs : List RiscVIns) (psize : Nat) (tbl : DecTable)
    (hok : setCategories instrs psize = .ok tbl) :
    (∀ sz m b, (m, b) ∈ tblOf tbl sz → ∀ v e, (v, e) ∈ b →
       ∃ c ∈ e.cat, c.xlen = psize * 8) ∧
    (∀ endian bytez offset va r, disasm tbl endian bytez offset va = .ok r →
       ∃ e : RiscVIns, r.mnem = e.name ∧ ∃ c ∈ e.cat, c.xlen = psize * 8) := by
  have hstored : ∀ sz m b, (m, b) ∈ tblOf tbl sz → ∀ v e, (v, e) ∈ b →
      ∃ c ∈ e.cat, c.xlen = psize * 8 := by
    intro sz m b hmb v e hve
    have hany := tblOf_xlen hok sz hmb hve
    rw [List.any_eq_true] at hany
    obtain ⟨c, hc, hcx⟩ := hany
    exact ⟨c, hc, by simpa using hcx⟩
  refine ⟨hstored, ?_⟩
  intro endian bytez offset va r hr
  simp only [disasm] at hr
  repeat' split at hr
  all_goals first
    | (rename_i found hfm
       injection hr with hr
       obtain ⟨m, b, h1, h2⟩ := firstMatch_mem hfm
       refine ⟨found, ?_, hstored _ m b h1 _ found h2⟩
       rw [← hr])
    | cases hr

/-- C10 witness: in the tables built from `[jalIns, ldIns64]` at pointer
size 4, the stored JAL entry has a category of register width 32. -/
theorem c10_witness : ∃ c ∈ jalIns.cat, c.xlen = 4 * 8 :=
  (c10_xlen_filter [jalIns, ldIns64] 4 tblJcap (by decide)).1 true 127
    [(111, jalIns)] (by decide) 111 jalIns (by decide)

/-- C3: in each per-width mask table the masks appear in strictly decreasing
`(popcount, mask)` order (so non-increasing popcount); a mask that is a
proper bit-subset of another has strictly smaller popcount, so the more
specific (superset) mask sits at a strictly earlier table position; and the
scan returns the matching entry of the earliest-positioned mask whose
bucket matches — in particular the more specific of two overlapping
instructions when nothing even earlier matches. -/
theorem c3_mask_specificity (instrs : List RiscVIns) (psize : Nat) (tbl : DecTable)
    (hok : setCategories instrs psize = .ok tbl) (sz : Bool) :
    ((tblOf tbl sz).Pairwise (fun p q => keyGT p.1 q.1)) ∧
    (∀ M1 M2 : Nat, M1 &&& M2 = M1 → M1 ≠ M2 → count_bits M1 < count_bits M2) ∧
    (∀ i j, (hi : i < (tblOf tbl sz).length) → (hj : j < (tblOf tbl sz).length) →
       ((tblOf tbl sz).get ⟨i, hi⟩).1 &&& ((tblOf tbl sz).get ⟨j, hj⟩).1
           = ((tblOf tbl sz).get ⟨i, hi⟩).1 →
       ((tblOf tbl sz).get ⟨i, hi⟩).1 ≠ ((tblOf tbl sz).get ⟨j, hj⟩).1 →
       j < i) ∧
    (∀ ival mask b e, (mask, b) ∈ tblOf tbl sz →
       lookupA b (ival &&& mask) = some e →
       (∀ p ∈ tblOf tbl sz, keyGT p.1 mask → lookupA p.2 (ival &&& p.1) = none) →
       firstMatch (tblOf tbl sz) ival = some e) := by
  have hpw := tblOf_pairwise hok sz
  have hnd := tblOf_keys_nodup hok sz
  have hne : (tblOf tbl sz).Pairwise (fun p q => p.1 ≠ q.1) :=
    List.pairwise_map.mp hnd
  have hgtpw : (tblOf tbl sz).Pairwise (fun p q => keyGT p.1 q.1) := by
    have hand := hpw.and hne
    refine List.Pairwise.imp ?_ hand
    rintro a b ⟨h1, h2⟩
    unfold keyLe at h1
    unfold keyGT
    simp only at h1
    omega
  refine ⟨hgtpw, fun M1 M2 h1 h2 => count_bits_lt_of_proper_subset h1 h2, ?_, ?_⟩
  · intro i j hi hj hsub hnij
    by_contra hle
    push_neg at hle
    have hlt : count_bits ((tblOf tbl sz).get ⟨i, hi⟩).1 <
        count_bits ((tblOf tbl sz).get ⟨j, hj⟩).1 :=
      count_bits_lt_of_proper_subset hsub hnij
    rcases Nat.lt_or_ge i j with hij | hij
    · have hgt := List.pairwise_iff_get.mp hgtpw ⟨i, hi⟩ ⟨j, hj⟩ (by simpa using hij)
      unfold keyGT at hgt
      omega
    · have hieq : i = j := by omega
      subst hieq
      exact hnij rfl
  · intro ival mask b e hmem hlook hearly
    exact firstMatch_sel hpw hnd hmem hlook hearly

/-- C3 witness: in the JAL/J tables the word `0x6F` matches both the `J`
bucket (mask `0xFFF`, tried first) and the JAL bucket (mask `0x7F`); the
scan selects the more specific `J` entry. -/
theorem c3_witness : firstMatch (tblOf tblJJ true) 111 = some jIns :=
  (c3_mask_specificity [jalIns, jIns] 4 tblJJ (by decide) true).2.2.2 111 4095
    [(111, jIns)] jIns (by decide) (by decide) (by decide)

/-- C1 (counterexample): JAL's compiled entry has value `0x6F` (all variable
fields zero) and mask `0x7F`, but the synthesized `J` entry shares that
value under the strictly larger mask `0xFFF`, so the mask table tries `J`
first and decoding the word `0x6F` returns mnemonic `J`, not JAL's name —
the round-trip fails for JAL. -/
theorem c1_counterexample_j_shadows_jal :
    get_instr_mask jalGenFields = .ok (127, 111) ∧
    get_instr_mask (synthUncondFields jalGenFields) = .ok (4095, 111) ∧
    setCategories [jalIns, jIns] 4 = .ok tblJJ ∧
    jalIns.name = "JAL" ∧ jalIns.value = 111 ∧
    jalIns.value &&& jalIns.mask = jalIns.value ∧
    jalIns.mask &&& jIns.mask = jalIns.mask ∧
    mnemOf (disasm tblJJ 0 [111, 0, 0, 0] 0 0) = some "J" ∧
    ("J" : String) ≠ "JAL" := by
  decide

/-- C1 (amended): the round-trip holds conditionally — decoding the word
`e.value` (little-endian, in bounds, of `e`'s width class) returns `e`'s
name when `e`'s mask/value entry is stored in the selected table, the word
matches `e`'s own bucket, and no mask tried earlier (strictly greater
`(popcount, mask)` key) matches the word; without that last condition a
more-masked entry sharing the encoding (such as the synthesized `J` over
JAL) is returned instead. -/
theorem c1_amended_conditional_roundtrip (instrs : List RiscVIns) (psize : Nat)
    (tbl : DecTable) (e : RiscVIns) (b : Bucket) (bytez : List Nat)
    (offset va : Nat) (sel : Bool)
    (hok : setCategories instrs psize = .ok tbl)
    (hsel : ((bytez.getD offset 0) &&& 3 == 3) = sel)
    (hoff : offset < bytez.length)
    (hlen : offset + (if sel then 4 else 2) ≤ bytez.length)
    (hword : readWord 0 sel bytez offset = e.value)
    (hmem : (e.mask, b) ∈ tblOf tbl sel)
    (hlook : lookupA b (e.value &&& e.mask) = some e)
    (hearly : ∀ p ∈ tblOf tbl sel, keyGT p.1 e.mask →
      lookupA p.2 (e.value &&& p.1) = none) :
    mnemOf (disasm tbl 0 bytez offset va) = some e.name := by
  have hfm : firstMatch (tblOf tbl sel) e.value = some e :=
    firstMatch_sel (tblOf_pairwise hok sel) (tblOf_keys_nodup hok sel) hmem hlook hearly
  simp only [disasm]
  rw [hsel, if_pos hoff, if_pos hlen, hword, hfm]
  rfl

/-- C1 (amended) witness: the synthesized `J` entry itself round-trips in
the JAL/J tables — decoding its value `0x6F` returns `J`. -/
theorem c1_amended_witness : mnemOf (disasm tblJJ 0 [111, 0, 0, 0] 0 0) = some jIns.name :=
  c1_amended_conditional_roundtrip [jalIns, jIns] 4 tblJJ jIns [(111, jIns)]
    [111, 0, 0, 0] 0 0 true (by decide) (by decide) (by decide) (by decide)
    (by decide) (by decide) (by decide) (by decide)

/-- C4 (counterexample): on the C.JR-shaped compressed row, whose 5-bit
constant register field is written as the single digit `0` and is followed
by the 2-bit quadrant, `get_instr_mask` produces mask `0xF07F` and value
`0x802`; there `value & mask = 0x2 ≠ value`, so the unconditional invariant
`value & mask == value ∧ value & ~mask == 0` fails on compiled rows. -/
theorem c4_counterexample_underfilled_const :
    get_instr_mask cjrGenFields = .ok (61567, 2050) ∧
    ¬(2050 &&& 61567 = 2050 ∧
      Int.land (2050 : Int) (Int.lnot (61567 : Int)) = 0) := by
  refine ⟨by decide, ?_⟩
  rintro ⟨h1, h2⟩
  exact absurd h1 (by decide)
